import Mathlib

/-!
Verification of the stroke-to-shape recognition core of the whiteboard
repository (`src/src-tauri/src/canvas.rs` and `src/src-tauri/src/shapes.rs`).

Embedding conventions:
* `f64` is modeled as `ℝ` (exact real arithmetic); `f64::sqrt` is `Real.sqrt`
  and `f64::atan2` is the argument of the corresponding complex number, which
  matches the IEEE `atan2(y, x)` convention of a result in `(-π, π]`.
* The source initializes its bounding-box folds with the largest finite double
  `f64::MAX = (2^53 - 1) * 2^971` and its negation `f64::MIN`; these sentinels
  are embedded as the same exact rational constants.
* Rust loops that accumulate are embedded as folds over the same index ranges;
  loops that set a flag and `break` are embedded as the corresponding bounded
  existential; a loop that counts matches (or accumulates `1.0` per match) is
  embedded as `List.countP` over the same predicate.
* The recursive Douglas-Peucker simplifier is not structurally terminating in
  the source (see `douglas_peucker` below), so it is embedded with explicit
  fuel and an `Option` result, `none` meaning the source recursion does not
  return (stack overflow).
* `uuid::Uuid::new_v4()` produces an opaque fresh identifier; it is embedded
  as the fixed string `""` since no verified property depends on the id.
-/

namespace Whiteboard

open Real

/-- Point from `main.rs` lines 43-48: `{x, y: f64, pressure: Option<f64>, timestamp: u64}`. -/
structure Point where
  x : ℝ
  y : ℝ
  pressure : Option ℝ
  timestamp : ℕ

instance : Inhabited Point := ⟨⟨0, 0, none, 0⟩⟩

/-- Stroke from `main.rs` lines 52-58. -/
structure Stroke where
  id : String
  points : List Point
  color : String
  width : ℝ
  tool : String

/-- TextRegion from `ocr.rs` lines 11-17 (only the `text` field is read by the
diagram classifier; the other fields are carried for completeness). -/
structure TextBounds where
  x : ℝ
  y : ℝ
  width : ℝ
  height : ℝ

/-- TextRegion from `ocr.rs` lines 11-17. -/
structure TextRegion where
  id : String
  text : String
  bounds : TextBounds
  confidence : ℝ
  font_size_estimate : ℝ

/-- ShapeType from `shapes.rs` lines 14-24: the closed enumeration of shapes. -/
inductive ShapeType where
  | Rectangle
  | Circle
  | Ellipse
  | Triangle
  | Diamond
  | Arrow
  | Line
  | Connector
  | Freeform
deriving DecidableEq

/-- ShapeBounds from `shapes.rs` lines 39-45. -/
structure ShapeBounds where
  x : ℝ
  y : ℝ
  width : ℝ
  height : ℝ
  rotation : ℝ

/-- ArrowHead from `shapes.rs` lines 61-65. -/
structure ArrowHead where
  style : String
  size : ℝ
  direction : ℝ

/-- ShapeProperties from `shapes.rs` lines 49-57. -/
structure ShapeProperties where
  center_x : ℝ
  center_y : ℝ
  radius : Option ℝ
  start_point : Option (ℝ × ℝ)
  end_point : Option (ℝ × ℝ)
  corner_radius : Option ℝ
  arrow_head : Option ArrowHead

/-- DetectedShape from `shapes.rs` lines 28-35. -/
structure DetectedShape where
  id : String
  shape_type : ShapeType
  bounds : ShapeBounds
  confidence : ℝ
  stroke_ids : List String
  properties : ShapeProperties

/-- DetectionParams from `shapes.rs` lines 69-75. -/
structure DetectionParams where
  min_points : ℕ
  circularity_threshold : ℝ
  rectangularity_threshold : ℝ
  line_straightness_threshold : ℝ
  arrow_angle_tolerance : ℝ

/-- Default for DetectionParams, `shapes.rs` lines 77-87. -/
def DetectionParams.default : DetectionParams :=
  { min_points := 5
    circularity_threshold := 0.85
    rectangularity_threshold := 0.80
    line_straightness_threshold := 0.95
    arrow_angle_tolerance := 30.0 }

/-- The largest finite IEEE-754 double, `f64::MAX = (2^53 - 1) * 2^971`, used by
the source as the initial accumulator of its bounding-box folds (`f64::MIN` is
its negation). -/
def f64MAX : ℝ := (2 ^ 53 - 1) * 2 ^ 971

/-- Rust `f64::atan2`: `y.atan2(x)` is the angle of the vector `(x, y)` in
`(-π, π]`, i.e. the complex argument of `x + y·i` (with `atan2 0 0 = 0`, as in
IEEE). -/
noncomputable def atan2 (y x : ℝ) : ℝ := Complex.arg ⟨x, y⟩

/-- Rust `f64` truncation toward zero, used by `%`. -/
noncomputable def rustTrunc (x : ℝ) : ℝ := if 0 ≤ x then (⌊x⌋ : ℝ) else (⌈x⌉ : ℝ)

/-- Rust `%` on `f64`: the truncated remainder `a - b * (a / b).trunc()`. -/
noncomputable def rustFmod (a b : ℝ) : ℝ := a - b * rustTrunc (a / b)

/-! ## canvas.rs -/

/-- One step of the bounding-box accumulation
`min_x = min_x.min(p.x); … ; max_y = max_y.max(p.y)` shared by
`calculate_bounding_box` (canvas.rs lines 152-159) and `calculate_bounds`
(shapes.rs lines 198-203); the state is `(min_x, min_y, max_x, max_y)`. -/
noncomputable def bboxStep (acc : ℝ × ℝ × ℝ × ℝ) (p : Point) : ℝ × ℝ × ℝ × ℝ :=
  (min acc.1 p.x, min acc.2.1 p.y, max acc.2.2.1 p.x, max acc.2.2.2 p.y)

/-- calculate_bounding_box from `canvas.rs` lines 142-162: `None` for an empty
stroke list, otherwise the fold of `bboxStep` over every point of every stroke
starting from the `(f64::MAX, f64::MAX, f64::MIN, f64::MIN)` sentinels. -/
noncomputable def calculate_bounding_box (strokes : List Stroke) :
    Option (ℝ × ℝ × ℝ × ℝ) :=
  if strokes.isEmpty then none
  else some (strokes.foldl (fun acc st => st.points.foldl bboxStep acc)
    (f64MAX, f64MAX, -f64MAX, -f64MAX))

/-- normalize_strokes from `canvas.rs` lines 165-210. -/
noncomputable def normalize_strokes (strokes : List Stroke)
    (target_width target_height padding : ℝ) : List Stroke :=
  match calculate_bounding_box strokes with
  | none => strokes
  | some (min_x, min_y, max_x, max_y) =>
    let width := max_x - min_x
    let height := max_y - min_y
    if width = 0 ∨ height = 0 then strokes
    else
      let scale_x := (target_width - 2 * padding) / width
      let scale_y := (target_height - 2 * padding) / height
      let scale := min scale_x scale_y
      let offset_x := padding + (target_width - 2 * padding - width * scale) / 2
      let offset_y := padding + (target_height - 2 * padding - height * scale) / 2
      strokes.map (fun stroke =>
        { id := stroke.id
          color := stroke.color
          width := stroke.width * scale
          tool := stroke.tool
          points := stroke.points.map (fun p =>
            { x := (p.x - min_x) * scale + offset_x
              y := (p.y - min_y) * scale + offset_y
              pressure := p.pressure
              timestamp := p.timestamp }) })

/-- perpendicular_distance from `canvas.rs` lines 261-278 (`t.clamp(0.0, 1.0)`
is `max 0 (min t 1)`). -/
noncomputable def perpendicular_distance (point line_start line_end : Point) : ℝ :=
  let dx := line_end.x - line_start.x
  let dy := line_end.y - line_start.y
  let length_sq := dx * dx + dy * dy
  if length_sq = 0 then
    Real.sqrt ((point.x - line_start.x) ^ 2 + (point.y - line_start.y) ^ 2)
  else
    let t := ((point.x - line_start.x) * dx + (point.y - line_start.y) * dy) / length_sq
    let tc := max 0 (min t 1)
    let nearest_x := line_start.x + tc * dx
    let nearest_y := line_start.y + tc * dy
    Real.sqrt ((point.x - nearest_x) ^ 2 + (point.y - nearest_y) ^ 2)

/-- douglas_peucker from `canvas.rs` lines 229-258. The source recursion is
`douglas_peucker(&points[..=max_index])` and `douglas_peucker(&points[max_index..])`;
when `max_index = 0` (no interior point had positive perpendicular distance,
possible only when `epsilon < 0` makes the `max_distance > epsilon` branch fire
with `max_distance = 0`) the second call receives the whole input again and the
source recurses forever (stack overflow). The embedding therefore takes fuel and
returns `none` where the source does not return; `simplify_stroke` supplies fuel
`points.length`, which is proved sufficient whenever `0 ≤ epsilon`
(`simplify_stroke` theorems below). The interior scan
`points.iter().enumerate().skip(1).take(points.len() - 2)` is the index list
`((List.range points.length).drop 1).take (points.length - 2)`, and the running
maximum starts from `(0.0, 0)` exactly as in the source. -/
noncomputable def douglas_peucker : ℕ → List Point → ℝ → Option (List Point)
  | 0, _, _ => none
  | fuel + 1, points, epsilon =>
    if points.length < 3 then some points
    else
      let start := points.headI
      let stop := points.getLastD default
      let scan := ((List.range points.length).drop 1).take (points.length - 2)
      let md := scan.foldl (fun (acc : ℝ × ℕ) i =>
        let distance := perpendicular_distance (points.getD i default) start stop
        if acc.1 < distance then (distance, i) else acc) (0, 0)
      if epsilon < md.1 then
        match douglas_peucker fuel (points.take (md.2 + 1)) epsilon,
              douglas_peucker fuel (points.drop md.2) epsilon with
        | some left, some right => some (left.dropLast ++ right)
        | _, _ => none
      else
        some [start, stop]

/-- simplify_stroke from `canvas.rs` lines 213-226 (`none` = the source call
does not return; see `douglas_peucker`). -/
noncomputable def simplify_stroke (points : List Point) (epsilon : ℝ) :
    Option (List Point) :=
  if points.length < 3 then some points
  else
    (douglas_peucker points.length points epsilon).map (fun result =>
      if result.length < 2 ∧ 2 ≤ points.length then
        [points.headI, points.getLastD default]
      else result)

/-! ## shapes.rs -/

/-- calculate_bounds from `shapes.rs` lines 192-212: the same fold as
`calculate_bounding_box`, over one point list, packed into a `ShapeBounds`
with `rotation = 0`. -/
noncomputable def calculate_bounds (points : List Point) : ShapeBounds :=
  let m := points.foldl bboxStep (f64MAX, f64MAX, -f64MAX, -f64MAX)
  { x := m.1, y := m.2.1, width := m.2.2.1 - m.1, height := m.2.2.2 - m.2.1,
    rotation := 0 }

/-- calculate_centroid from `shapes.rs` lines 215-220. -/
noncomputable def calculate_centroid (points : List Point) : ℝ × ℝ :=
  ((points.map Point.x).sum / points.length, (points.map Point.y).sum / points.length)

/-- is_stroke_closed from `shapes.rs` lines 223-231 (`false` for fewer than 3
points, otherwise first-to-last distance strictly below the threshold). -/
noncomputable def is_stroke_closed (points : List Point) (threshold : ℝ) : Prop :=
  3 ≤ points.length ∧
    Real.sqrt ((points.headI.x - (points.getLastD default).x) ^ 2 +
      (points.headI.y - (points.getLastD default).y) ^ 2) < threshold

noncomputable instance (points : List Point) (threshold : ℝ) :
    Decidable (is_stroke_closed points threshold) :=
  inferInstanceAs (Decidable (_ ∧ _))

/-- calculate_average_radius from `shapes.rs` lines 258-264. -/
noncomputable def calculate_average_radius (points : List Point) (center : ℝ × ℝ) : ℝ :=
  (points.map (fun p =>
    Real.sqrt ((p.x - center.1) ^ 2 + (p.y - center.2) ^ 2))).sum / points.length

/-- calculate_circularity from `shapes.rs` lines 234-255:
`(1.0 - coefficient_of_variation).max(0.0).min(1.0)`, and `0.0` outright when
the average radius is zero. -/
noncomputable def calculate_circularity (points : List Point) (center : ℝ × ℝ) : ℝ :=
  let avg_radius := calculate_average_radius points center
  if avg_radius = 0 then 0
  else
    let variance := (points.map (fun p =>
      (Real.sqrt ((p.x - center.1) ^ 2 + (p.y - center.2) ^ 2) - avg_radius) ^ 2)).sum
      / points.length
    let std_dev := Real.sqrt variance
    let coefficient_of_variation := std_dev / avg_radius
    min (max (1 - coefficient_of_variation) 0) 1

/-- calculate_convex_hull_area from `shapes.rs` lines 286-301: the shoelace sum
over indices `0..n` with wraparound `j = (i+1) % n`, halved and taken absolute. -/
noncomputable def calculate_convex_hull_area (points : List Point) : ℝ :=
  if points.length < 3 then 0
  else
    |((List.range points.length).foldl (fun area i =>
      let j := (i + 1) % points.length
      area + (points.getD i default).x * (points.getD j default).y
           - (points.getD j default).x * (points.getD i default).y) 0) / 2|

/-- detect_corners from `shapes.rs` lines 304-326: the fraction (out of 4) of
bounding-box corners that have some stroke point strictly within
`0.15 * max(width, height)`; the inner loop with `break` counts a corner once
as soon as one point matches, i.e. it counts corners satisfying the bounded
existential. -/
noncomputable def detect_corners (points : List Point) (bounds : ShapeBounds) : ℝ :=
  let corners : List (ℝ × ℝ) :=
    [(bounds.x, bounds.y), (bounds.x + bounds.width, bounds.y),
     (bounds.x + bounds.width, bounds.y + bounds.height),
     (bounds.x, bounds.y + bounds.height)]
  let threshold := max bounds.width bounds.height * 0.15
  (corners.countP (fun c => decide (∃ p ∈ points,
    Real.sqrt ((p.x - c.1) ^ 2 + (p.y - c.2) ^ 2) < threshold)) : ℝ) / 4

/-- calculate_rectangularity from `shapes.rs` lines 267-283. -/
noncomputable def calculate_rectangularity (points : List Point) (bounds : ShapeBounds) : ℝ :=
  let area := bounds.width * bounds.height
  if area = 0 then 0
  else
    let hull_area := calculate_convex_hull_area points
    let ratio := hull_area / area
    let corner_score := detect_corners points bounds
    min (ratio * 0.6 + corner_score * 0.4) 1

/-- check_diamond from `shapes.rs` lines 329-350. The source accumulates `1.0`
into `cardinal_scores[i]` for every point whose angle-from-center passes the
proximity test for target angle `i`, then requires every score `> 0.0`; the
accumulated score is the number of matching points, so the test is that every
target's match count is positive. Note the source's proximity test
`diff < PI/6 || (PI - diff).abs() < PI/6` also fires when the angle is roughly
opposite the target. -/
noncomputable def check_diamond (points : List Point) (center : ℝ × ℝ) : Prop :=
  ∀ target ∈ [-(Real.pi / 2), 0, Real.pi / 2, Real.pi],
    0 < points.countP (fun p =>
      let dx := p.x - center.1
      let dy := p.y - center.2
      let angle := atan2 dy dx
      let diff := |angle - target|
      decide (diff < Real.pi / 6 ∨ |Real.pi - diff| < Real.pi / 6))

noncomputable instance (points : List Point) (center : ℝ × ℝ) :
    Decidable (check_diamond points center) :=
  inferInstanceAs (Decidable (∀ target ∈ _, _))

/-- point_to_line_distance from `shapes.rs` lines 485-501 (textually the same
computation as `perpendicular_distance` in canvas.rs). -/
noncomputable def point_to_line_distance (point line_start line_end : Point) : ℝ :=
  let dx := line_end.x - line_start.x
  let dy := line_end.y - line_start.y
  let length_sq := dx * dx + dy * dy
  if length_sq = 0 then
    Real.sqrt ((point.x - line_start.x) ^ 2 + (point.y - line_start.y) ^ 2)
  else
    let t := ((point.x - line_start.x) * dx + (point.y - line_start.y) * dy) / length_sq
    let tc := max 0 (min t 1)
    let proj_x := line_start.x + tc * dx
    let proj_y := line_start.y + tc * dy
    Real.sqrt ((point.x - proj_x) ^ 2 + (point.y - proj_y) ^ 2)

/-- find_prominent_corners from `shapes.rs` lines 382-408: turning angles of the
interior points (indices `1..len-1`), stably sorted descending by angle
(`sort_by(|a, b| b.1.partial_cmp(&a.1).unwrap())` on a slice is a stable sort;
over exact reals the comparison is total, so the `unwrap` is modeled as the
total descending order — see the NaN fragment at the end of this file for where
the source `unwrap` panics), then the first `count` of them. -/
noncomputable def find_prominent_corners (points : List Point) (count : ℕ) : List Point :=
  if points.length < 3 then points
  else
    let angle_changes : List (ℕ × ℝ) :=
      (((List.range points.length).drop 1).take (points.length - 2)).map (fun i =>
        let prev := points.getD (i - 1) default
        let curr := points.getD i default
        let next := points.getD (i + 1) default
        let angle1 := atan2 (curr.y - prev.y) (curr.x - prev.x)
        let angle2 := atan2 (next.y - curr.y) (next.x - curr.x)
        (i, |angle2 - angle1|))
    let sorted := angle_changes.mergeSort (fun a b => decide (b.2 ≤ a.2))
    (sorted.take count).map (fun ic => points.getD ic.1 default)

/-- calculate_triangle_score from `shapes.rs` lines 353-379: fraction of points
strictly within 10.0 of one of the three edges spanned by the prominent
corners; the inner loop over `0..3` with `break` marks a point as soon as one
edge matches. -/
noncomputable def calculate_triangle_score (points : List Point) : ℝ :=
  let corners := find_prominent_corners points 3
  if corners.length < 3 then 0
  else
    let on_edge_count := points.countP (fun p => decide (∃ i ∈ List.range 3,
      point_to_line_distance p (corners.getD i default)
        (corners.getD ((i + 1) % 3) default) < 10))
    (on_edge_count : ℝ) / points.length

/-- calculate_straightness from `shapes.rs` lines 411-435: `1.0` for fewer than
2 points, `0.0` for coincident endpoints, otherwise
`(direct_distance / path_length).min(1.0)` with the path summed over segments
`i-1 → i` for `i` in `1..len`. -/
noncomputable def calculate_straightness (points : List Point) : ℝ :=
  if points.length < 2 then 1
  else
    let start := points.headI
    let stop := points.getLastD default
    let direct_distance := Real.sqrt ((stop.x - start.x) ^ 2 + (stop.y - start.y) ^ 2)
    if direct_distance = 0 then 0
    else
      let path_length := (((List.range points.length).drop 1).map (fun i =>
        let dx := (points.getD i default).x - (points.getD (i - 1) default).x
        let dy := (points.getD i default).y - (points.getD (i - 1) default).y
        Real.sqrt (dx * dx + dy * dy))).sum
      min (direct_distance / path_length) 1

/-- detect_arrow_head from `shapes.rs` lines 438-482. `tail_start` is the
saturating subtraction `n - 10` (ℕ subtraction saturates); the barb scan over
`barb_check_start..n-1` with `break` is the bounded existential over the index
list `(List.range (n-1)).drop (n-5)`; `angle_diff` is the Rust `%` (truncated
remainder) of the degree deviation by `180.0`. The `angle_tolerance` parameter
is accepted and ignored, exactly as in the source (which compares against the
literals `30.0` and `150.0`). -/
noncomputable def detect_arrow_head (points : List Point) (angle_tolerance : ℝ) :
    Option ArrowHead :=
  if points.length < 5 then none
  else
    let n := points.length
    let tip := points.getLastD default
    let tail_start := n - 10
    let main_direction :=
      if 0 < tail_start then
        let mid := points.getD tail_start default
        atan2 (tip.y - mid.y) (tip.x - mid.x)
      else
        let start := points.headI
        atan2 (tip.y - start.y) (tip.x - start.x)
    let barb_check_start := n - 5
    let has_barb := ∃ i ∈ (List.range (n - 1)).drop barb_check_start,
      let p1 := points.getD i default
      let p2 := points.getD (i + 1) default
      let segment_angle := atan2 (p2.y - p1.y) (p2.x - p1.x)
      let angle_diff := rustFmod (|segment_angle - main_direction| * 180 / Real.pi) 180
      30 < angle_diff ∧ angle_diff < 150
    if has_barb then
      some { style := "classic", size := 10, direction := main_direction * 180 / Real.pi }
    else none

/-- detect_compound_shapes from `shapes.rs` lines 504-507: a stub that always
returns the empty list. -/
def detect_compound_shapes (_shapes : List DetectedShape) (_strokes : List Stroke) :
    List DetectedShape := []

/-- merge_shapes from `shapes.rs` lines 510-514. -/
def merge_shapes (individual compound : List DetectedShape) : List DetectedShape :=
  individual ++ compound

/-- detect_shape_from_stroke from `shapes.rs` lines 112-189. The source reaches
`points.first()?` / `points.last()?` while building the properties, so an empty
point list yields `None`; every other input yields `Some`. The `id` field is a
fresh uuid in the source, embedded as `""` (see the header note). -/
noncomputable def detect_shape_from_stroke (stroke : Stroke) (params : DetectionParams) :
    Option DetectedShape :=
  let points := stroke.points
  let bounds := calculate_bounds points
  let center := calculate_centroid points
  let is_closed := is_stroke_closed points (max bounds.width bounds.height * 0.1)
  let tc : ShapeType × ℝ :=
    if is_closed then
      let circularity := calculate_circularity points center
      if params.circularity_threshold < circularity then (ShapeType.Circle, circularity)
      else
        let rectangularity := calculate_rectangularity points bounds
        if params.rectangularity_threshold < rectangularity then
          if check_diamond points center then (ShapeType.Diamond, rectangularity * 0.95)
          else (ShapeType.Rectangle, rectangularity)
        else
          let triangle_score := calculate_triangle_score points
          if 0.75 < triangle_score then (ShapeType.Triangle, triangle_score)
          else (ShapeType.Freeform, 0.5)
    else
      let straightness := calculate_straightness points
      if params.line_straightness_threshold < straightness then
        if (detect_arrow_head points params.arrow_angle_tolerance).isSome then
          (ShapeType.Arrow, straightness * 0.95)
        else (ShapeType.Line, straightness)
      else (ShapeType.Connector, 0.6)
  match points.head?, points.getLast? with
  | some pFirst, some pLast =>
    some
      { id := ""
        shape_type := tc.1
        bounds := bounds
        confidence := tc.2
        stroke_ids := [stroke.id]
        properties :=
          { center_x := center.1
            center_y := center.2
            radius := if tc.1 = ShapeType.Circle then
                some (calculate_average_radius points center)
              else none
            start_point := some (pFirst.x, pFirst.y)
            end_point := some (pLast.x, pLast.y)
            corner_radius := none
            arrow_head := if tc.1 = ShapeType.Arrow then
                detect_arrow_head points params.arrow_angle_tolerance
              else none } }
  | _, _ => none

/-- detect_shapes from `shapes.rs` lines 90-109: default parameters, skip
strokes with fewer than `min_points` points, collect the per-stroke results in
order, then merge with the (always empty) compound shapes. -/
noncomputable def detect_shapes (strokes : List Stroke) : List DetectedShape :=
  let params := DetectionParams.default
  let shapes := strokes.filterMap (fun stroke =>
    if stroke.points.length < params.min_points then none
    else detect_shape_from_stroke stroke params)
  merge_shapes shapes (detect_compound_shapes shapes strokes)

/-- Substring containment, Rust `str::contains`, at the character level:
the needle's characters appear contiguously in the haystack. -/
def containsSub (hay needle : List Char) : Prop := needle.IsInfix hay

instance (hay needle : List Char) : Decidable (containsSub hay needle) :=
  inferInstanceAs (Decidable (needle.IsInfix hay))

/-- Rust `str::to_lowercase`, embedded at the character level (on the ASCII
keyword alphabet the Unicode lowercasing is exactly per-character
`Char.toLower`). -/
def rustLowercase (s : String) : List Char := s.toList.map Char.toLower

/-- The flowchart keyword list of `shapes.rs` line 539. -/
def flowchart_keywords : List String :=
  ["start", "end", "if", "yes", "no", "begin", "process"]

/-- The UML keyword list of `shapes.rs` line 540. -/
def uml_keywords : List String :=
  ["class", "interface", "extends", "implements", "public", "private"]

/-- classify_diagram from `shapes.rs` lines 517-580. The single counting pass
over `shapes` increments `arrow_count` on `Arrow | Line`, `circle_count` on
`Circle | Ellipse`, and the dedicated counters on `Rectangle`, `Diamond` and
`Connector`; each final counter is therefore the match count embedded with
`countP`. The keyword scores count keywords contained in the lower-cased,
space-joined text (Rust `to_lowercase` on the ASCII keywords is `String.toLower`),
and are compared and combined exactly as in the source; `total_shapes.max(1.0)`
guards the denominator. The lower-cased texts joined by `" "` are embedded as
character lists joined by a single space (`List.intercalate [' ']`). -/
noncomputable def classify_diagram (shapes : List DetectedShape)
    (text_regions : List TextRegion) : String × ℝ :=
  let rectangle_count := shapes.countP (fun s => decide (s.shape_type = ShapeType.Rectangle))
  let diamond_count := shapes.countP (fun s => decide (s.shape_type = ShapeType.Diamond))
  let arrow_count := shapes.countP (fun s =>
    decide (s.shape_type = ShapeType.Arrow ∨ s.shape_type = ShapeType.Line))
  let circle_count := shapes.countP (fun s =>
    decide (s.shape_type = ShapeType.Circle ∨ s.shape_type = ShapeType.Ellipse))
  let connector_count := shapes.countP (fun s => decide (s.shape_type = ShapeType.Connector))
  let text_content := List.intercalate [' '] (text_regions.map (fun t => rustLowercase t.text))
  let flowchart_text_score := flowchart_keywords.countP
    (fun k => decide (containsSub text_content k.toList))
  let uml_text_score := uml_keywords.countP
    (fun k => decide (containsSub text_content k.toList))
  let total_shapes : ℝ := shapes.length
  if 0 < diamond_count ∧ 0 < arrow_count ∧ 0 < rectangle_count then
    ("flowchart",
      min (0.3 + (flowchart_text_score : ℝ) * 0.1 +
        ((diamond_count : ℝ) + (arrow_count : ℝ)) / max total_shapes 1 * 0.3) 0.95)
  else if 2 < rectangle_count ∧ 0 < arrow_count ∧ 0 < uml_text_score then
    ("uml_class", min (0.3 + (uml_text_score : ℝ) * 0.15) 0.9)
  else if rectangle_count < circle_count ∧ 0 < connector_count then
    ("state_diagram", 0.6)
  else if 0 < rectangle_count ∧ 0 < arrow_count then
    ("block_diagram", 0.5)
  else
    ("freeform", 0.3)

/-! ## Spec-side definitions

Definitions in this section follow the words of the specification (they are the
yardsticks the code is compared against); each doc comment says which claim
uses it. -/

/-- Count of shapes of exactly one given type, as the spec's "counts of
Diamond-typed and Arrow-typed shapes" reads (claims C2, C9). -/
def countType (shapes : List DetectedShape) (t : ShapeType) : ℕ :=
  shapes.countP (fun s => decide (s.shape_type = t))

/-- The count the source actually accumulates into `arrow_count`: shapes typed
`Arrow` or `Line` (claim C2, amended). -/
def countArrowLine (shapes : List DetectedShape) : ℕ :=
  shapes.countP (fun s =>
    decide (s.shape_type = ShapeType.Arrow ∨ s.shape_type = ShapeType.Line))

/-- The number of flow-control keywords found in the lower-cased, space-joined
recognized text (claim C2). -/
def flowHits (texts : List TextRegion) : ℕ :=
  flowchart_keywords.countP (fun k =>
    decide (containsSub (List.intercalate [' '] (texts.map (fun t => rustLowercase t.text)))
      k.toList))

/-- The flowchart confidence exactly as claim C2 states it:
`min(0.3 + 0.1·flow_keyword_hits + 0.3·(diamonds + arrows) / max(total_shapes, 1), 0.95)`
with `arrows` the count of Arrow-typed shapes only. -/
noncomputable def claimFlowchartConfidence (shapes : List DetectedShape)
    (texts : List TextRegion) : ℝ :=
  min (0.3 + 0.1 * (flowHits texts : ℝ) +
    0.3 * ((countType shapes ShapeType.Diamond : ℝ) + (countType shapes ShapeType.Arrow : ℝ))
      / max (shapes.length : ℝ) 1) 0.95

/-- A featureless shape record of a given type (only `shape_type` is read by
`classify_diagram`); used to build concrete classifier inputs. -/
def mkShape (t : ShapeType) : DetectedShape :=
  { id := ""
    shape_type := t
    bounds := ⟨0, 0, 0, 0, 0⟩
    confidence := 0
    stroke_ids := []
    properties := ⟨0, 0, none, none, none, none, none⟩ }

/-! ## C9: empty-input safety -/

/-- C9: `detect_shapes` applied to the empty stroke list returns the empty
list, and `classify_diagram` applied to an empty shape list and empty
text-region list returns exactly `("freeform", 0.3)`. -/
theorem detect_shapes_nil_classify_nil :
    detect_shapes [] = [] ∧ classify_diagram [] [] = ("freeform", 0.3) :=
  ⟨rfl, rfl⟩

/-! ## C2: the flowchart branch of classify_diagram -/

/-- The concrete classifier input of C2's counterexample: one Diamond, one
Arrow, one Rectangle and one Line. -/
def c2shapes : List DetectedShape :=
  [mkShape .Diamond, mkShape .Arrow, mkShape .Rectangle, mkShape .Line]

/-- Helper: whenever the diamond, arrow-or-line and rectangle counts are all
positive, `classify_diagram` takes its first branch and returns "flowchart"
with the source's confidence expression. -/
theorem classify_flowchart_eq (shapes : List DetectedShape) (texts : List TextRegion)
    (hd : 0 < countType shapes ShapeType.Diamond)
    (ha : 0 < countArrowLine shapes)
    (hr : 0 < countType shapes ShapeType.Rectangle) :
    classify_diagram shapes texts = ("flowchart",
      min (0.3 + (flowHits texts : ℝ) * 0.1 +
        ((countType shapes ShapeType.Diamond : ℝ) + (countArrowLine shapes : ℝ))
          / max (shapes.length : ℝ) 1 * 0.3) 0.95) := by
  simp only [classify_diagram, countType, countArrowLine, flowHits] at *
  rw [if_pos ⟨hd, ha, hr⟩]

/-- C2 counterexample: for the four shapes Diamond, Arrow, Rectangle, Line the
claim's antecedent holds (each of Diamond, Arrow, Rectangle has positive
count), yet `classify_diagram` does not return the claim's confidence: the
source counts `Line` shapes into `arrow_count`, so it returns
`0.3 + 0.3·(1+2)/4 = 0.525` where the claim demands `0.3 + 0.3·(1+1)/4 = 0.45`. -/
theorem classify_flowchart_claim_false :
    0 < countType c2shapes ShapeType.Diamond ∧
    0 < countType c2shapes ShapeType.Arrow ∧
    0 < countType c2shapes ShapeType.Rectangle ∧
    classify_diagram c2shapes [] ≠
      ("flowchart", claimFlowchartConfidence c2shapes []) := by
  refine ⟨by decide, by decide, by decide, ?_⟩
  rw [classify_flowchart_eq c2shapes [] (by decide) (by decide) (by decide)]
  have hD : countType c2shapes ShapeType.Diamond = 1 := by decide
  have hA : countType c2shapes ShapeType.Arrow = 1 := by decide
  have hL : countArrowLine c2shapes = 2 := by decide
  have hH : flowHits ([] : List TextRegion) = 0 := by decide
  have hLen : c2shapes.length = 4 := by decide
  simp only [claimFlowchartConfidence, hD, hA, hL, hH, hLen]
  intro h
  have h2 := congrArg Prod.snd h
  simp only at h2
  rw [show (max ((4 : ℕ) : ℝ) 1) = 4 by norm_num,
      min_eq_left (by norm_num), min_eq_left (by norm_num)] at h2
  norm_num at h2

/-- C2 amended: under the claim's antecedent (all three counts positive — the
code's trigger uses the Arrow-or-Line count, which the Arrow count bounds from
below), `classify_diagram` returns "flowchart" with confidence
`min(0.3 + 0.1·flow_keyword_hits + 0.3·(diamonds + arrows_or_lines) / max(total_shapes, 1), 0.95)`,
where the arrow term counts Arrow-typed AND Line-typed shapes. -/
theorem classify_flowchart_formula (shapes : List DetectedShape) (texts : List TextRegion)
    (hd : 0 < countType shapes ShapeType.Diamond)
    (ha : 0 < countType shapes ShapeType.Arrow)
    (hr : 0 < countType shapes ShapeType.Rectangle) :
    classify_diagram shapes texts = ("flowchart",
      min (0.3 + (flowHits texts : ℝ) * 0.1 +
        ((countType shapes ShapeType.Diamond : ℝ) + (countArrowLine shapes : ℝ))
          / max (shapes.length : ℝ) 1 * 0.3) 0.95) := by
  refine classify_flowchart_eq shapes texts hd ?_ hr
  refine lt_of_lt_of_le ha (List.countP_mono_left ?_)
  intro s _ h
  simp only [decide_eq_true_eq] at h ⊢
  exact Or.inl h

/-- Witness for C2's amended theorem: one Diamond, one Arrow, one Rectangle and
the text "Yes" classify as a flowchart with confidence
`min(0.3 + 0.1·1 + 0.3·(1+1)/3, 0.95) = 0.6`. -/
theorem classify_flowchart_formula_witness :
    classify_diagram [mkShape .Diamond, mkShape .Arrow, mkShape .Rectangle]
      [⟨"t1", "Yes", ⟨0, 0, 0, 0⟩, 1, 12⟩] = ("flowchart", 0.6) := by
  rw [classify_flowchart_formula _ _ (by decide) (by decide) (by decide)]
  have h1 : flowHits [⟨"t1", "Yes", ⟨0, 0, 0, 0⟩, 1, 12⟩] = 1 := by decide
  have h2 : countType [mkShape .Diamond, mkShape .Arrow, mkShape .Rectangle]
      ShapeType.Diamond = 1 := by decide
  have h3 : countArrowLine [mkShape .Diamond, mkShape .Arrow, mkShape .Rectangle] = 1 := by
    decide
  rw [h1, h2, h3]
  norm_num

/-! ## Bounding-box fold lemmas

The state of `bboxStep` is `(min_x, min_y, max_x, max_y)`; the fold only ever
lowers the mins and raises the maxes, each final min/max bounds every folded
point, and each final component is either the initial sentinel or attained by
some point. -/

theorem bboxFold_minx_le_init (points : List Point) (init : ℝ × ℝ × ℝ × ℝ) :
    (points.foldl bboxStep init).1 ≤ init.1 := by
  induction points generalizing init with
  | nil => simp
  | cons q l ih => exact le_trans (ih (bboxStep init q)) (min_le_left _ _)

theorem bboxFold_miny_le_init (points : List Point) (init : ℝ × ℝ × ℝ × ℝ) :
    (points.foldl bboxStep init).2.1 ≤ init.2.1 := by
  induction points generalizing init with
  | nil => simp
  | cons q l ih => exact le_trans (ih (bboxStep init q)) (min_le_left _ _)

theorem bboxFold_init_le_maxx (points : List Point) (init : ℝ × ℝ × ℝ × ℝ) :
    init.2.2.1 ≤ (points.foldl bboxStep init).2.2.1 := by
  induction points generalizing init with
  | nil => simp
  | cons q l ih => exact le_trans (le_max_left _ _) (ih (bboxStep init q))

theorem bboxFold_init_le_maxy (points : List Point) (init : ℝ × ℝ × ℝ × ℝ) :
    init.2.2.2 ≤ (points.foldl bboxStep init).2.2.2 := by
  induction points generalizing init with
  | nil => simp
  | cons q l ih => exact le_trans (le_max_left _ _) (ih (bboxStep init q))

theorem bboxFold_minx_le (points : List Point) (init : ℝ × ℝ × ℝ × ℝ) :
    ∀ p ∈ points, (points.foldl bboxStep init).1 ≤ p.x := by
  induction points generalizing init with
  | nil => simp
  | cons q l ih =>
    intro p hp
    rcases List.mem_cons.mp hp with rfl | hp
    · exact le_trans (bboxFold_minx_le_init l (bboxStep init p)) (min_le_right _ _)
    · exact ih (bboxStep init q) p hp

theorem bboxFold_miny_le (points : List Point) (init : ℝ × ℝ × ℝ × ℝ) :
    ∀ p ∈ points, (points.foldl bboxStep init).2.1 ≤ p.y := by
  induction points generalizing init with
  | nil => simp
  | cons q l ih =>
    intro p hp
    rcases List.mem_cons.mp hp with rfl | hp
    · exact le_trans (bboxFold_miny_le_init l (bboxStep init p)) (min_le_right _ _)
    · exact ih (bboxStep init q) p hp

theorem bboxFold_le_maxx (points : List Point) (init : ℝ × ℝ × ℝ × ℝ) :
    ∀ p ∈ points, p.x ≤ (points.foldl bboxStep init).2.2.1 := by
  induction points generalizing init with
  | nil => simp
  | cons q l ih =>
    intro p hp
    rcases List.mem_cons.mp hp with rfl | hp
    · exact le_trans (le_max_right _ _) (bboxFold_init_le_maxx l (bboxStep init p))
    · exact ih (bboxStep init q) p hp

theorem bboxFold_le_maxy (points : List Point) (init : ℝ × ℝ × ℝ × ℝ) :
    ∀ p ∈ points, p.y ≤ (points.foldl bboxStep init).2.2.2 := by
  induction points generalizing init with
  | nil => simp
  | cons q l ih =>
    intro p hp
    rcases List.mem_cons.mp hp with rfl | hp
    · exact le_trans (le_max_right _ _) (bboxFold_init_le_maxy l (bboxStep init p))
    · exact ih (bboxStep init q) p hp

theorem bboxFold_minx_attained (points : List Point) (init : ℝ × ℝ × ℝ × ℝ) :
    (points.foldl bboxStep init).1 = init.1 ∨
      ∃ p ∈ points, (points.foldl bboxStep init).1 = p.x := by
  induction points generalizing init with
  | nil => simp
  | cons q l ih =>
    rcases ih (bboxStep init q) with h | ⟨p, hp, h⟩
    · rcases min_choice init.1 q.x with hm | hm
      · exact Or.inl (h.trans hm)
      · exact Or.inr ⟨q, List.mem_cons_self _ _, h.trans hm⟩
    · exact Or.inr ⟨p, List.mem_cons_of_mem _ hp, h⟩

theorem bboxFold_miny_attained (points : List Point) (init : ℝ × ℝ × ℝ × ℝ) :
    (points.foldl bboxStep init).2.1 = init.2.1 ∨
      ∃ p ∈ points, (points.foldl bboxStep init).2.1 = p.y := by
  induction points generalizing init with
  | nil => simp
  | cons q l ih =>
    rcases ih (bboxStep init q) with h | ⟨p, hp, h⟩
    · rcases min_choice init.2.1 q.y with hm | hm
      · exact Or.inl (h.trans hm)
      · exact Or.inr ⟨q, List.mem_cons_self _ _, h.trans hm⟩
    · exact Or.inr ⟨p, List.mem_cons_of_mem _ hp, h⟩

theorem bboxFold_maxx_attained (points : List Point) (init : ℝ × ℝ × ℝ × ℝ) :
    (points.foldl bboxStep init).2.2.1 = init.2.2.1 ∨
      ∃ p ∈ points, (points.foldl bboxStep init).2.2.1 = p.x := by
  induction points generalizing init with
  | nil => simp
  | cons q l ih =>
    rcases ih (bboxStep init q) with h | ⟨p, hp, h⟩
    · rcases max_choice init.2.2.1 q.x with hm | hm
      · exact Or.inl (h.trans hm)
      · exact Or.inr ⟨q, List.mem_cons_self _ _, h.trans hm⟩
    · exact Or.inr ⟨p, List.mem_cons_of_mem _ hp, h⟩

theorem bboxFold_maxy_attained (points : List Point) (init : ℝ × ℝ × ℝ × ℝ) :
    (points.foldl bboxStep init).2.2.2 = init.2.2.2 ∨
      ∃ p ∈ points, (points.foldl bboxStep init).2.2.2 = p.y := by
  induction points generalizing init with
  | nil => simp
  | cons q l ih =>
    rcases ih (bboxStep init q) with h | ⟨p, hp, h⟩
    · rcases max_choice init.2.2.2 q.y with hm | hm
      · exact Or.inl (h.trans hm)
      · exact Or.inr ⟨q, List.mem_cons_self _ _, h.trans hm⟩
    · exact Or.inr ⟨p, List.mem_cons_of_mem _ hp, h⟩

/-- For a nonempty point list the computed width and height of
`calculate_bounds` are nonnegative. -/
theorem calculate_bounds_width_height_nonneg (points : List Point)
    (h : points ≠ []) :
    0 ≤ (calculate_bounds points).width ∧ 0 ≤ (calculate_bounds points).height := by
  obtain ⟨p, hp⟩ := List.exists_mem_of_ne_nil points h
  constructor
  · have h1 := bboxFold_minx_le points (f64MAX, f64MAX, -f64MAX, -f64MAX) p hp
    have h2 := bboxFold_le_maxx points (f64MAX, f64MAX, -f64MAX, -f64MAX) p hp
    simp only [calculate_bounds]
    linarith
  · have h1 := bboxFold_miny_le points (f64MAX, f64MAX, -f64MAX, -f64MAX) p hp
    have h2 := bboxFold_le_maxy points (f64MAX, f64MAX, -f64MAX, -f64MAX) p hp
    simp only [calculate_bounds]
    linarith

/-! ## C5: bounding-box containment -/

/-- The containment property of claim C5: the point lies in
`[x, x + width] × [y, y + height]` of the given bounds. -/
def inBounds (b : ShapeBounds) (p : Point) : Prop :=
  b.x ≤ p.x ∧ p.x ≤ b.x + b.width ∧ b.y ≤ p.y ∧ p.y ≤ b.y + b.height

theorem calculate_bounds_containment (points : List Point) :
    ∀ p ∈ points, inBounds (calculate_bounds points) p := by
  intro p hp
  have h1 := bboxFold_minx_le points (f64MAX, f64MAX, -f64MAX, -f64MAX) p hp
  have h2 := bboxFold_le_maxx points (f64MAX, f64MAX, -f64MAX, -f64MAX) p hp
  have h3 := bboxFold_miny_le points (f64MAX, f64MAX, -f64MAX, -f64MAX) p hp
  have h4 := bboxFold_le_maxy points (f64MAX, f64MAX, -f64MAX, -f64MAX) p hp
  simp only [calculate_bounds, inBounds]
  refine ⟨h1, by linarith, h3, by linarith⟩

/-! ## Range lemmas for the per-stroke scores -/

theorem calculate_circularity_mem_unit (points : List Point) (center : ℝ × ℝ) :
    0 ≤ calculate_circularity points center ∧ calculate_circularity points center ≤ 1 := by
  simp only [calculate_circularity]
  split
  · exact ⟨le_refl 0, zero_le_one⟩
  · exact ⟨le_min (le_max_right _ _) zero_le_one, min_le_right _ _⟩

theorem calculate_rectangularity_mem_unit (points : List Point) (h : points ≠ []) :
    0 ≤ calculate_rectangularity points (calculate_bounds points) ∧
      calculate_rectangularity points (calculate_bounds points) ≤ 1 := by
  obtain ⟨hw, hh⟩ := calculate_bounds_width_height_nonneg points h
  simp only [calculate_rectangularity]
  split
  · exact ⟨le_refl 0, zero_le_one⟩
  · rename_i harea
    have hpos : 0 < (calculate_bounds points).width * (calculate_bounds points).height :=
      lt_of_le_of_ne (mul_nonneg hw hh) (Ne.symm harea)
    have hhull : 0 ≤ calculate_convex_hull_area points := by
      simp only [calculate_convex_hull_area]
      split
      · exact le_refl 0
      · exact abs_nonneg _
    have hratio : 0 ≤ calculate_convex_hull_area points /
        ((calculate_bounds points).width * (calculate_bounds points).height) :=
      div_nonneg hhull (le_of_lt hpos)
    have hcorner : 0 ≤ detect_corners points (calculate_bounds points) := by
      simp only [detect_corners]
      positivity
    constructor
    · refine le_min ?_ zero_le_one
      have := mul_nonneg hratio (by norm_num : (0:ℝ) ≤ 0.6)
      have := mul_nonneg hcorner (by norm_num : (0:ℝ) ≤ 0.4)
      linarith
    · exact min_le_right _ _

theorem calculate_triangle_score_mem_unit (points : List Point) (h : points ≠ []) :
    0 ≤ calculate_triangle_score points ∧ calculate_triangle_score points ≤ 1 := by
  simp only [calculate_triangle_score]
  split
  · exact ⟨le_refl 0, zero_le_one⟩
  · have hlen : 0 < (points.length : ℝ) := by
      have := List.length_pos.mpr h
      exact_mod_cast this
    constructor
    · positivity
    · rw [div_le_one hlen]
      exact_mod_cast List.countP_le_length _

theorem calculate_straightness_mem_unit (points : List Point) :
    0 ≤ calculate_straightness points ∧ calculate_straightness points ≤ 1 := by
  simp only [calculate_straightness]
  split
  · exact ⟨zero_le_one, le_refl 1⟩
  · split
    · exact ⟨le_refl 0, zero_le_one⟩
    · refine ⟨le_min ?_ zero_le_one, min_le_right _ _⟩
      refine div_nonneg (Real.sqrt_nonneg _) ?_
      refine List.sum_nonneg ?_
      intro a ha
      obtain ⟨i, _, rfl⟩ := List.mem_map.mp ha
      exact Real.sqrt_nonneg _

/-! ## The per-stroke classifier: shared characterization -/

/-- Everything the per-claim theorems need about one classifier output: the
bounds are `calculate_bounds` of the stroke's points, the stroke id is carried,
the confidence is in `[0, 1]`, and the shape type is one of the eight the
decision tree can produce (not `Ellipse`). Holds for every parameter record. -/
theorem detect_shape_from_stroke_spec (stroke : Stroke) (params : DetectionParams)
    (sh : DetectedShape) (h : detect_shape_from_stroke stroke params = some sh) :
    sh.bounds = calculate_bounds stroke.points ∧
    sh.stroke_ids = [stroke.id] ∧
    (0 ≤ sh.confidence ∧ sh.confidence ≤ 1) ∧
    sh.shape_type ∈ [ShapeType.Circle, ShapeType.Diamond, ShapeType.Rectangle,
      ShapeType.Triangle, ShapeType.Freeform, ShapeType.Arrow, ShapeType.Line,
      ShapeType.Connector] := by
  match hh : stroke.points.head?, hl : stroke.points.getLast? with
  | none, _ =>
    rw [detect_shape_from_stroke, hh] at h
    exact absurd h (by simp)
  | some pF, none =>
    rw [detect_shape_from_stroke, hh, hl] at h
    exact absurd h (by simp)
  | some pF, some pL =>
    have hne : stroke.points ≠ [] := by
      intro hnil
      rw [hnil] at hh
      exact absurd hh (by simp)
    rw [detect_shape_from_stroke, hh, hl, Option.some.injEq] at h
    subst h
    refine ⟨rfl, rfl, ?_⟩
    simp only
    split
    · -- closed branch
      split
      · -- Circle
        rename_i hcirc
        exact ⟨(calculate_circularity_mem_unit _ _), by simp⟩
      · split
        · split
          · -- Diamond
            rename_i hrect _
            obtain ⟨h0, h1⟩ := calculate_rectangularity_mem_unit stroke.points hne
            exact ⟨⟨by positivity, by nlinarith⟩, by simp⟩
          · -- Rectangle
            exact ⟨calculate_rectangularity_mem_unit stroke.points hne, by simp⟩
        · split
          · -- Triangle
            exact ⟨calculate_triangle_score_mem_unit stroke.points hne, by simp⟩
          · -- Freeform
            exact ⟨⟨by norm_num, by norm_num⟩, by simp⟩
    · -- open branch
      split
      · split
        · -- Arrow
          obtain ⟨h0, h1⟩ := calculate_straightness_mem_unit stroke.points
          exact ⟨⟨by positivity, by nlinarith⟩, by simp⟩
        · -- Line
          exact ⟨calculate_straightness_mem_unit stroke.points, by simp⟩
      · -- Connector
        exact ⟨⟨by norm_num, by norm_num⟩, by simp⟩

/-- Membership in `detect_shapes` comes from one originating stroke that passed
the `min_points` gate and classified successfully. -/
theorem detect_shapes_mem {strokes : List Stroke} {sh : DetectedShape}
    (h : sh ∈ detect_shapes strokes) :
    ∃ st ∈ strokes,
      detect_shape_from_stroke st DetectionParams.default = some sh := by
  simp only [detect_shapes, merge_shapes, detect_compound_shapes,
    List.append_nil, List.mem_filterMap] at h
  obtain ⟨st, hst, hsome⟩ := h
  refine ⟨st, hst, ?_⟩
  by_cases hlen : st.points.length < DetectionParams.default.min_points
  · rw [if_pos hlen] at hsome
    exact absurd hsome (by simp)
  · rwa [if_neg hlen] at hsome

/-! ## A concrete classifier run

An open zigzag of five points with perfect-square segment lengths: the
classifier takes the open branch, finds straightness `10/14 = 5/7 ≤ 0.95`, and
emits a Connector with confidence `0.6`. This single concrete evaluation feeds
the witnesses of C5, C7 and C10. -/

/-- Points (0,0), (3,0), (3,4), (6,4), (6,8). -/
def zigPoints : List Point :=
  [⟨0, 0, none, 0⟩, ⟨3, 0, none, 1⟩, ⟨3, 4, none, 2⟩, ⟨6, 4, none, 3⟩, ⟨6, 8, none, 4⟩]

/-- A stroke drawing `zigPoints`. -/
def zigStroke : Stroke := ⟨"z", zigPoints, "#000000", 2, "pen"⟩

/-- The shape the classifier emits for `zigStroke`. -/
noncomputable def zigShape : DetectedShape :=
  ⟨"", ShapeType.Connector, ⟨0, 0, 6, 8, 0⟩, 0.6, ["z"],
    ⟨18 / 5, 16 / 5, none, some (0, 0), some (6, 8), none, none⟩⟩

theorem sqrt_nine : Real.sqrt 9 = 3 := by
  rw [show (9 : ℝ) = 3 ^ 2 by norm_num, Real.sqrt_sq (by norm_num : (0 : ℝ) ≤ 3)]

theorem sqrt_sixteen : Real.sqrt 16 = 4 := by
  rw [show (16 : ℝ) = 4 ^ 2 by norm_num, Real.sqrt_sq (by norm_num : (0 : ℝ) ≤ 4)]

theorem sqrt_hundred : Real.sqrt 100 = 10 := by
  rw [show (100 : ℝ) = 10 ^ 2 by norm_num, Real.sqrt_sq (by norm_num : (0 : ℝ) ≤ 10)]

theorem calculate_bounds_zig : calculate_bounds zigPoints = ⟨0, 0, 6, 8, 0⟩ := by
  simp only [calculate_bounds, zigPoints, List.foldl, bboxStep]
  norm_num [f64MAX, min_def, max_def]

theorem calculate_centroid_zig : calculate_centroid zigPoints = (18 / 5, 16 / 5) := by
  simp only [calculate_centroid, zigPoints, List.map, List.sum_cons, List.sum_nil,
    List.length_cons, List.length_nil]
  norm_num

theorem calculate_straightness_zig : calculate_straightness zigPoints = 5 / 7 := by
  simp only [calculate_straightness, zigPoints]
  norm_num [List.headI, List.getLastD, List.getD, List.range_succ, sqrt_nine,
    sqrt_sixteen, sqrt_hundred, min_def]

theorem detect_shape_zig :
    detect_shape_from_stroke zigStroke DetectionParams.default = some zigShape := by
  have hnc : ¬ is_stroke_closed zigPoints
      (max (calculate_bounds zigPoints).width (calculate_bounds zigPoints).height * 0.1) := by
    rw [calculate_bounds_zig]
    simp only [is_stroke_closed, zigPoints, List.headI, List.getLastD]
    norm_num [sqrt_hundred, max_def]
  have hhd : zigPoints.head? = some ⟨0, 0, none, 0⟩ := rfl
  have hlast : zigPoints.getLast? = some ⟨6, 8, none, 4⟩ := rfl
  rw [detect_shape_from_stroke]
  simp only [zigStroke]
  rw [if_neg hnc, calculate_straightness_zig]
  rw [if_neg (by norm_num [DetectionParams.default] : ¬ (DetectionParams.default.line_straightness_threshold < (5 : ℝ) / 7))]
  rw [calculate_bounds_zig, calculate_centroid_zig, hhd, hlast]
  simp [zigShape]

theorem detect_shapes_zig : detect_shapes [zigStroke] = [zigShape] := by
  simp only [detect_shapes, merge_shapes, detect_compound_shapes, List.append_nil,
    List.filterMap]
  rw [if_neg (by simp [zigStroke, zigPoints, DetectionParams.default])]
  rw [detect_shape_zig]

/-! ## C5: every point lies in its computed bounds -/

/-- C5: for every non-empty point sequence every point lies in
`[x, x + width] × [y, y + height]` of `calculate_bounds`, and consequently every
`DetectedShape` of `detect_shapes` carries bounds (equal to `calculate_bounds`
of its originating stroke's points) containing all points of that stroke. -/
theorem calculate_bounds_contain_points :
    (∀ (points : List Point), points ≠ [] → ∀ p ∈ points,
      inBounds (calculate_bounds points) p) ∧
    (∀ (strokes : List Stroke) (sh : DetectedShape), sh ∈ detect_shapes strokes →
      ∃ st ∈ strokes, sh.stroke_ids = [st.id] ∧
        sh.bounds = calculate_bounds st.points ∧
        ∀ p ∈ st.points, inBounds sh.bounds p) := by
  constructor
  · intro points _ p hp
    exact calculate_bounds_containment points p hp
  · intro strokes sh h
    obtain ⟨st, hst, hsome⟩ := detect_shapes_mem h
    obtain ⟨hb, hid, _, _⟩ := detect_shape_from_stroke_spec st DetectionParams.default sh hsome
    refine ⟨st, hst, hid, hb, ?_⟩
    intro p hp
    rw [hb]
    exact calculate_bounds_containment st.points p hp

/-- Witness for C5 at concrete inputs: the single point (1,2) lies in its own
bounds, and the zigzag's detected shape has bounds containing the zigzag. -/
theorem calculate_bounds_contain_points_witness :
    (inBounds (calculate_bounds [⟨1, 2, none, 0⟩]) ⟨1, 2, none, 0⟩) ∧
    (∃ st ∈ [zigStroke], zigShape.stroke_ids = [st.id] ∧
      zigShape.bounds = calculate_bounds st.points ∧
      ∀ p ∈ st.points, inBounds zigShape.bounds p) := by
  constructor
  · exact calculate_bounds_contain_points.1 [⟨1, 2, none, 0⟩] (by simp)
      ⟨1, 2, none, 0⟩ (by simp)
  · exact calculate_bounds_contain_points.2 [zigStroke] zigShape
      (by rw [detect_shapes_zig]; simp)

/-! ## C7: confidence is always in [0, 1] -/

/-- C7: every `DetectedShape` produced by `detect_shapes` has confidence in the
closed interval `[0, 1]`, for every input stroke list. -/
theorem detect_shapes_confidence_mem_unit (strokes : List Stroke)
    (sh : DetectedShape) (h : sh ∈ detect_shapes strokes) :
    0 ≤ sh.confidence ∧ sh.confidence ≤ 1 := by
  obtain ⟨st, _, hsome⟩ := detect_shapes_mem h
  exact (detect_shape_from_stroke_spec st DetectionParams.default sh hsome).2.2.1

/-- Witness for C7: the zigzag's detected shape has confidence in `[0, 1]`
(it is `0.6`). -/
theorem detect_shapes_confidence_mem_unit_witness :
    0 ≤ zigShape.confidence ∧ zigShape.confidence ≤ 1 :=
  detect_shapes_confidence_mem_unit [zigStroke] zigShape
    (by rw [detect_shapes_zig]; simp)

/-! ## C10: Ellipse is never emitted -/

/-- C10: `detect_shapes` never emits a shape typed `Ellipse`: every branch of
the per-stroke classifier produces Circle, Diamond, Rectangle, Triangle,
Freeform, Arrow, Line or Connector. -/
theorem detect_shapes_no_ellipse (strokes : List Stroke)
    (sh : DetectedShape) (h : sh ∈ detect_shapes strokes) :
    sh.shape_type ≠ ShapeType.Ellipse := by
  obtain ⟨st, _, hsome⟩ := detect_shapes_mem h
  have hmem := (detect_shape_from_stroke_spec st DetectionParams.default sh hsome).2.2.2
  intro he
  rw [he] at hmem
  simp at hmem

/-- Witness for C10: the zigzag's detected shape is not an Ellipse (it is a
Connector). -/
theorem detect_shapes_no_ellipse_witness : zigShape.shape_type ≠ ShapeType.Ellipse :=
  detect_shapes_no_ellipse [zigStroke] zigShape (by rw [detect_shapes_zig]; simp)

/-! ## C1: Douglas-Peucker structure -/

/-- Unfolding lemma: a short list is returned unchanged. -/
theorem douglas_peucker_short (fuel : ℕ) (points : List Point) (epsilon : ℝ)
    (h : points.length < 3) :
    douglas_peucker (fuel + 1) points epsilon = some points := by
  rw [douglas_peucker, if_pos h]

/-- Unfolding lemma for the recursive case, with the running-maximum fold
abstracted as `md`. -/
theorem douglas_peucker_succ (fuel : ℕ) (points : List Point) (epsilon : ℝ)
    (h : ¬ points.length < 3) (md : ℝ × ℕ)
    (hmd : md = (((List.range points.length).drop 1).take (points.length - 2)).foldl
      (fun (acc : ℝ × ℕ) i =>
        let distance := perpendicular_distance (points.getD i default) points.headI
          (points.getLastD default)
        if acc.1 < distance then (distance, i) else acc) (0, 0)) :
    douglas_peucker (fuel + 1) points epsilon =
      if epsilon < md.1 then
        match douglas_peucker fuel (points.take (md.2 + 1)) epsilon,
              douglas_peucker fuel (points.drop md.2) epsilon with
        | some left, some right => some (left.dropLast ++ right)
        | _, _ => none
      else some [points.headI, points.getLastD default] := by
  subst hmd
  rw [douglas_peucker, if_neg h]

/-- The running-maximum fold either never updates (and returns its start state)
or ends on an index of the scanned list. -/
theorem scanFold_cases (d : ℕ → ℝ) (l : List ℕ) (acc : ℝ × ℕ) :
    l.foldl (fun (acc : ℝ × ℕ) i => if acc.1 < d i then (d i, i) else acc) acc = acc ∨
    (l.foldl (fun (acc : ℝ × ℕ) i => if acc.1 < d i then (d i, i) else acc) acc).2 ∈ l := by
  induction l generalizing acc with
  | nil => exact Or.inl rfl
  | cons j t ih =>
    rw [List.foldl_cons]
    rcases ih (if acc.1 < d j then (d j, j) else acc) with h | h
    · rw [h]
      split
      · exact Or.inr (List.mem_cons_self _ _)
      · exact Or.inl rfl
    · exact Or.inr (List.mem_cons_of_mem _ h)

/-- An index scanned by `douglas_peucker`'s interior loop is interior:
`1 ≤ i` and `i + 1 < n`. -/
theorem mem_scan {n i : ℕ} (h : i ∈ ((List.range n).drop 1).take (n - 2)) :
    1 ≤ i ∧ i + 1 < n := by
  obtain ⟨j, hj, rfl⟩ := List.mem_iff_getElem.mp h
  have hlen : j < n - 2 := by
    have h2 := hj
    rw [List.length_take, List.length_drop, List.length_range] at h2
    omega
  rw [List.getElem_take, List.getElem_drop, List.getElem_range]
  omega

/-- A sublist of `m ++ [a]` whose last element is removed is a sublist of `m`. -/
theorem dropLast_sublist_append {α : Type _} {l m : List α} {a : α}
    (h : l.Sublist (m ++ [a])) : l.dropLast.Sublist m := by
  rcases List.sublist_append_iff.mp h with ⟨l₁, l₂, rfl, h₁, h₂⟩
  cases h₂ with
  | cons _ h3 =>
    obtain rfl := List.sublist_nil.mp h3
    rw [List.append_nil]
    exact (List.dropLast_sublist _).trans h₁
  | cons₂ _ h3 =>
    obtain rfl := List.sublist_nil.mp h3
    rw [List.dropLast_concat]
    exact h₁

/-- Dropping the last element of a list with at least two elements keeps its
head. -/
theorem head?_dropLast_two {α : Type _} {l : List α} (h : 2 ≤ l.length) :
    l.dropLast.head? = l.head? := by
  match l, h with
  | a :: b :: t, _ => simp

/-- The structural invariant of the fueled Douglas-Peucker recursion: with
nonnegative epsilon and fuel at least the list length, it returns a sublist
with the same head and last element and at least 2 elements. -/
theorem douglas_peucker_spec (fuel : ℕ) :
    ∀ (points : List Point) (epsilon : ℝ), 0 ≤ epsilon →
      points.length ≤ fuel → 2 ≤ points.length →
      ∃ r, douglas_peucker fuel points epsilon = some r ∧
        r.Sublist points ∧ r.head? = points.head? ∧
        r.getLast? = points.getLast? ∧ 2 ≤ r.length := by
  induction fuel with
  | zero =>
    intro points ε _ hf h2
    omega
  | succ fuel ih =>
    intro points ε hε hf h2
    by_cases hlen : points.length < 3
    · exact ⟨points, douglas_peucker_short fuel points ε hlen,
        List.Sublist.refl _, rfl, rfl, h2⟩
    · set md := (((List.range points.length).drop 1).take (points.length - 2)).foldl
        (fun (acc : ℝ × ℕ) i =>
          let distance := perpendicular_distance (points.getD i default) points.headI
            (points.getLastD default)
          if acc.1 < distance then (distance, i) else acc) (0, 0) with hmd
      have hunf := douglas_peucker_succ fuel points ε hlen md hmd
      have hpne : points ≠ [] := by
        intro hnil
        rw [hnil] at h2
        simp at h2
      obtain ⟨plast, hplast⟩ : ∃ x, points.getLast? = some x :=
        ⟨points.getLast hpne, List.getLast?_eq_getLast points hpne⟩
      by_cases hbr : ε < md.1
      · -- split at the maximum, which an update must have produced
        have hne0 : md ≠ ((0 : ℝ), (0 : ℕ)) := by
          intro h0
          rw [h0] at hbr
          exact absurd (lt_of_le_of_lt hε hbr) (lt_irrefl 0)
        have hmem : md.2 ∈ ((List.range points.length).drop 1).take (points.length - 2) := by
          rcases scanFold_cases
            (fun i => perpendicular_distance (points.getD i default) points.headI
              (points.getLastD default))
            (((List.range points.length).drop 1).take (points.length - 2)) (0, 0) with h | h
          · exact absurd (hmd.trans h) hne0
          · rw [hmd]
            exact h
        obtain ⟨hmi1, hmi2⟩ := mem_scan hmem
        have hltake : (points.take (md.2 + 1)).length ≤ fuel := by
          rw [List.length_take]
          omega
        have h2take : 2 ≤ (points.take (md.2 + 1)).length := by
          rw [List.length_take]
          omega
        have hldrop : (points.drop md.2).length ≤ fuel := by
          rw [List.length_drop]
          omega
        have h2drop : 2 ≤ (points.drop md.2).length := by
          rw [List.length_drop]
          omega
        obtain ⟨left, hLeq, hLsub, hLhd, hLlast, hL2⟩ := ih _ ε hε hltake h2take
        obtain ⟨right, hReq, hRsub, hRhd, hRlast, hR2⟩ := ih _ ε hε hldrop h2drop
        refine ⟨left.dropLast ++ right, ?_, ?_, ?_, ?_, ?_⟩
        · rw [hunf, if_pos hbr, hLeq, hReq]
        · have htake : points.take (md.2 + 1) = points.take md.2 ++ [points[md.2]] := by
            rw [List.take_succ, List.getElem?_eq_getElem (by omega)]
            rfl
          have hA : left.dropLast.Sublist (points.take md.2) := by
            rw [htake] at hLsub
            exact dropLast_sublist_append hLsub
          have := hA.append hRsub
          rwa [List.take_append_drop] at this
        · have hld : left.dropLast ≠ [] := by
            intro hnil
            have := List.length_dropLast left
            rw [hnil] at this
            simp at this
            omega
          rw [List.head?_append_of_ne_nil _ hld, head?_dropLast_two hL2, hLhd,
            List.head?_take, if_neg (by omega)]
        · rw [List.getLast?_append, hRlast, List.getLast?_drop,
            if_neg (by omega), hplast]
          rfl
        · rw [List.length_append, List.length_dropLast]
          omega
      · -- collapse to the endpoints
        refine ⟨[points.headI, points.getLastD default], by rw [hunf, if_neg hbr],
          ?_, ?_, ?_, by simp⟩
        · match points, h2 with
          | a :: b :: t, _ =>
            refine List.Sublist.cons₂ a ?_
            rw [List.singleton_sublist]
            have : (a :: b :: t).getLastD default = (b :: t).getLast (by simp) := by
              rw [List.getLastD_eq_getLast?,
                List.getLast?_eq_getLast _ (by simp : a :: b :: t ≠ []), Option.getD_some]
              rw [List.getLast_cons]
            rw [this]
            exact List.getLast_mem _
        · match points, h2 with
          | a :: b :: t, _ => rfl
        · match points, h2 with
          | a :: b :: t, _ =>
            rw [List.getLastD_eq_getLast?,
              List.getLast?_eq_getLast _ (by simp : a :: b :: t ≠ []), Option.getD_some]
            rw [List.getLast?_eq_getLast _ (by simp : [_, _] ≠ [])]
            simp

/-- C1 amended: for every non-empty point sequence and every NONNEGATIVE
epsilon, `simplify_stroke` returns (fuel suffices, no divergence) a subsequence
of the input containing the original first and last point, of length at most
the input's. For negative epsilon the source can recurse forever (see the
counterexample), which the claim as stated does not exclude. -/
theorem simplify_stroke_spec (points : List Point) (epsilon : ℝ)
    (hε : 0 ≤ epsilon) (hne : points ≠ []) :
    ∃ r, simplify_stroke points epsilon = some r ∧ r.Sublist points ∧
      points.headI ∈ r ∧ points.getLastD default ∈ r ∧
      r.length ≤ points.length := by
  obtain ⟨a, t, rfl⟩ : ∃ a t, points = a :: t := by
    cases points with
    | nil => exact absurd rfl hne
    | cons a t => exact ⟨a, t, rfl⟩
  by_cases hlen : (a :: t).length < 3
  · refine ⟨a :: t, by rw [simplify_stroke, if_pos hlen], List.Sublist.refl _,
      List.mem_cons_self _ _, ?_, le_refl _⟩
    rw [List.getLastD_eq_getLast?, List.getLast?_eq_getLast _ (by simp), Option.getD_some]
    exact List.getLast_mem _
  · obtain ⟨r, hreq, hsub, hhd, hlast, h2⟩ :=
      douglas_peucker_spec (a :: t).length (a :: t) epsilon hε (le_refl _) (by omega)
    refine ⟨r, ?_, hsub, ?_, ?_, hsub.length_le⟩
    · rw [simplify_stroke, if_neg hlen, hreq, Option.map_some']
      rw [if_neg]
      intro hcon
      omega
    · refine List.mem_of_mem_head? ?_
      rw [hhd]
      simp
    · refine List.mem_of_mem_getLast? ?_
      rw [hlast, List.getLastD_eq_getLast?, List.getLast?_eq_getLast _ (by simp),
        Option.getD_some]
      simp [List.getLast?_eq_getLast]

/-- Witness for C1's amended theorem: three collinear points with epsilon 1. -/
theorem simplify_stroke_spec_witness :
    0 ≤ (1 : ℝ) ∧ ([⟨0, 0, none, 0⟩, ⟨1, 0, none, 1⟩, ⟨2, 0, none, 2⟩] : List Point) ≠ [] ∧
    ∃ r, simplify_stroke [⟨0, 0, none, 0⟩, ⟨1, 0, none, 1⟩, ⟨2, 0, none, 2⟩] 1 = some r ∧
      r.Sublist [⟨0, 0, none, 0⟩, ⟨1, 0, none, 1⟩, ⟨2, 0, none, 2⟩] ∧
      ([⟨0, 0, none, 0⟩, ⟨1, 0, none, 1⟩, ⟨2, 0, none, 2⟩] : List Point).headI ∈ r ∧
      ([⟨0, 0, none, 0⟩, ⟨1, 0, none, 1⟩, ⟨2, 0, none, 2⟩] : List Point).getLastD default ∈ r ∧
      r.length ≤ ([⟨0, 0, none, 0⟩, ⟨1, 0, none, 1⟩, ⟨2, 0, none, 2⟩] : List Point).length :=
  ⟨by norm_num, by simp,
    simplify_stroke_spec [⟨0, 0, none, 0⟩, ⟨1, 0, none, 1⟩, ⟨2, 0, none, 2⟩] 1
      (by norm_num) (by simp)⟩

/-- The three collinear points of C1's counterexample. -/
def c1pts : List Point := [⟨0, 0, none, 0⟩, ⟨1, 0, none, 1⟩, ⟨2, 0, none, 2⟩]

/-- On `c1pts` every interior perpendicular distance is 0, so the running
maximum of the interior scan stays at its initial `(0.0, 0)`. -/
theorem c1_md :
    (((List.range c1pts.length).drop 1).take (c1pts.length - 2)).foldl
      (fun (acc : ℝ × ℕ) i =>
        let distance := perpendicular_distance (c1pts.getD i default) c1pts.headI
          (c1pts.getLastD default)
        if acc.1 < distance then (distance, i) else acc) (0, 0) = ((0 : ℝ), (0 : ℕ)) := by
  have hpd : perpendicular_distance (c1pts.getD 1 default) c1pts.headI
      (c1pts.getLastD default) = 0 := by
    have e1 : c1pts.getD 1 default = ⟨1, 0, none, 1⟩ := rfl
    have e2 : c1pts.headI = ⟨0, 0, none, 0⟩ := rfl
    have e3 : c1pts.getLastD default = ⟨2, 0, none, 2⟩ := rfl
    rw [e1, e2, e3]
    simp only [perpendicular_distance]
    norm_num [min_def, max_def]
  have escan : ((List.range c1pts.length).drop 1).take (c1pts.length - 2) = [1] := rfl
  rw [escan, List.foldl_cons, List.foldl_nil]
  simp only [hpd]
  rw [if_neg (lt_irrefl (0 : ℝ))]

theorem c1_dp1 : douglas_peucker 1 c1pts (-1) = none := by
  show douglas_peucker (0 + 1) c1pts (-1) = none
  rw [douglas_peucker_succ 0 c1pts (-1) (by decide) _ c1_md.symm,
    if_pos (by norm_num : (-1 : ℝ) < (((0 : ℝ), (0 : ℕ))).1)]
  rfl

theorem c1_dp2 : douglas_peucker 2 c1pts (-1) = none := by
  have hs1 : douglas_peucker 1 (c1pts.take (((0 : ℝ), (0 : ℕ)).2 + 1)) (-1) =
      some [⟨0, 0, none, 0⟩] := by
    have e : c1pts.take (((0 : ℝ), (0 : ℕ)).2 + 1) = [⟨0, 0, none, 0⟩] := rfl
    rw [e]
    exact douglas_peucker_short 0 _ _ (by simp)
  have hd1 : douglas_peucker 1 (c1pts.drop ((0 : ℝ), (0 : ℕ)).2) (-1) = none := by
    have e : c1pts.drop (((0 : ℝ), (0 : ℕ))).2 = c1pts := rfl
    rw [e]
    exact c1_dp1
  show douglas_peucker (1 + 1) c1pts (-1) = none
  rw [douglas_peucker_succ 1 c1pts (-1) (by decide) _ c1_md.symm,
    if_pos (by norm_num : (-1 : ℝ) < (((0 : ℝ), (0 : ℕ))).1), hs1, hd1]

theorem c1_dp3 : douglas_peucker 3 c1pts (-1) = none := by
  have hs1 : douglas_peucker 2 (c1pts.take (((0 : ℝ), (0 : ℕ)).2 + 1)) (-1) =
      some [⟨0, 0, none, 0⟩] := by
    have e : c1pts.take (((0 : ℝ), (0 : ℕ)).2 + 1) = [⟨0, 0, none, 0⟩] := rfl
    rw [e]
    exact douglas_peucker_short 1 _ _ (by simp)
  have hd1 : douglas_peucker 2 (c1pts.drop ((0 : ℝ), (0 : ℕ)).2) (-1) = none := by
    have e : c1pts.drop (((0 : ℝ), (0 : ℕ))).2 = c1pts := rfl
    rw [e]
    exact c1_dp2
  show douglas_peucker (2 + 1) c1pts (-1) = none
  rw [douglas_peucker_succ 2 c1pts (-1) (by decide) _ c1_md.symm,
    if_pos (by norm_num : (-1 : ℝ) < (((0 : ℝ), (0 : ℕ))).1), hs1, hd1]

/-- C1 counterexample: at the three collinear points and `epsilon = -1` the
source recursion splits at `max_index = 0` and calls itself on the whole input
again, recursing forever (the embedding exhausts any fuel and returns `none`);
in particular no simplified subsequence is returned, refuting the claim for
this input. -/
theorem simplify_stroke_claim_false :
    ¬ ∃ r, simplify_stroke c1pts (-1) = some r ∧ r.Sublist c1pts ∧
      c1pts.headI ∈ r ∧ c1pts.getLastD default ∈ r ∧ r.length ≤ c1pts.length := by
  have hnone : simplify_stroke c1pts (-1) = none := by
    rw [simplify_stroke, if_neg (by decide : ¬ c1pts.length < 3),
      show c1pts.length = 3 from rfl, c1_dp3]
    rfl
  rintro ⟨r, hr, -⟩
  rw [hnone] at hr
  exact Option.noConfusion hr

/-! ## C6: normalization preserves the aspect ratio -/

/-- All points of all strokes, in iteration order (the order of the source's
nested `for stroke / for point` loops). -/
def allPoints (strokes : List Stroke) : List Point := (strokes.map Stroke.points).flatten

/-- The source's nested bounding-box fold equals the fold over `allPoints`. -/
theorem bbox_nested_fold (strokes : List Stroke) (init : ℝ × ℝ × ℝ × ℝ) :
    strokes.foldl (fun acc st => st.points.foldl bboxStep acc) init =
      (allPoints strokes).foldl bboxStep init := by
  induction strokes generalizing init with
  | nil => rfl
  | cons s t ih =>
    simp only [allPoints, List.map_cons, List.flatten_cons, List.foldl_append,
      List.foldl_cons] at ih ⊢
    exact ih _

/-- `allPoints` of strokes whose point lists are mapped pointwise. -/
theorem allPoints_map (g : Point → Point) (f : Stroke → Stroke)
    (hf : ∀ s, (f s).points = s.points.map g) (strokes : List Stroke) :
    allPoints (strokes.map f) = (allPoints strokes).map g := by
  induction strokes with
  | nil => rfl
  | cons s t ih =>
    simp only [allPoints, List.map_cons, List.flatten_cons, List.map_append] at ih ⊢
    rw [hf, ih]

/-- Width/height aspect of the union bounding box of a stroke list (`0` when
there is none; `x / 0 = 0` in Lean, matching no particular float value — the
claim theorems always divide by provably nonzero heights). -/
noncomputable def bboxAspect (strokes : List Stroke) : ℝ :=
  match calculate_bounding_box strokes with
  | none => 0
  | some (min_x, min_y, max_x, max_y) => (max_x - min_x) / (max_y - min_y)

/-- If `v` bounds every `x` from below, is attained, and does not exceed the
`f64::MAX` sentinel, the fold's running min ends at `v`. -/
theorem fold_minx_eq (pts : List Point) (v : ℝ)
    (hb : ∀ p ∈ pts, v ≤ p.x) (ha : ∃ p ∈ pts, p.x = v) (hv : v ≤ f64MAX) :
    (pts.foldl bboxStep (f64MAX, f64MAX, -f64MAX, -f64MAX)).1 = v := by
  obtain ⟨p₀, hp₀, hpv⟩ := ha
  have h1 : (pts.foldl bboxStep (f64MAX, f64MAX, -f64MAX, -f64MAX)).1 ≤ v := by
    rw [← hpv]
    exact bboxFold_minx_le pts _ p₀ hp₀
  rcases bboxFold_minx_attained pts (f64MAX, f64MAX, -f64MAX, -f64MAX) with h | ⟨q, hq, h⟩
  · replace h : (pts.foldl bboxStep (f64MAX, f64MAX, -f64MAX, -f64MAX)).1 = f64MAX := h
    linarith
  · rw [h]
    have h2 := hb q hq
    rw [h] at h1
    linarith

theorem fold_miny_eq (pts : List Point) (v : ℝ)
    (hb : ∀ p ∈ pts, v ≤ p.y) (ha : ∃ p ∈ pts, p.y = v) (hv : v ≤ f64MAX) :
    (pts.foldl bboxStep (f64MAX, f64MAX, -f64MAX, -f64MAX)).2.1 = v := by
  obtain ⟨p₀, hp₀, hpv⟩ := ha
  have h1 : (pts.foldl bboxStep (f64MAX, f64MAX, -f64MAX, -f64MAX)).2.1 ≤ v := by
    rw [← hpv]
    exact bboxFold_miny_le pts _ p₀ hp₀
  rcases bboxFold_miny_attained pts (f64MAX, f64MAX, -f64MAX, -f64MAX) with h | ⟨q, hq, h⟩
  · replace h : (pts.foldl bboxStep (f64MAX, f64MAX, -f64MAX, -f64MAX)).2.1 = f64MAX := h
    linarith
  · rw [h]
    have h2 := hb q hq
    rw [h] at h1
    linarith

theorem fold_maxx_eq (pts : List Point) (v : ℝ)
    (hb : ∀ p ∈ pts, p.x ≤ v) (ha : ∃ p ∈ pts, p.x = v) (hv : -f64MAX ≤ v) :
    (pts.foldl bboxStep (f64MAX, f64MAX, -f64MAX, -f64MAX)).2.2.1 = v := by
  obtain ⟨p₀, hp₀, hpv⟩ := ha
  have h1 : v ≤ (pts.foldl bboxStep (f64MAX, f64MAX, -f64MAX, -f64MAX)).2.2.1 := by
    rw [← hpv]
    exact bboxFold_le_maxx pts _ p₀ hp₀
  rcases bboxFold_maxx_attained pts (f64MAX, f64MAX, -f64MAX, -f64MAX) with h | ⟨q, hq, h⟩
  · replace h : (pts.foldl bboxStep (f64MAX, f64MAX, -f64MAX, -f64MAX)).2.2.1 = -f64MAX := h
    linarith
  · rw [h]
    have h2 := hb q hq
    rw [h] at h1
    linarith

theorem fold_maxy_eq (pts : List Point) (v : ℝ)
    (hb : ∀ p ∈ pts, p.y ≤ v) (ha : ∃ p ∈ pts, p.y = v) (hv : -f64MAX ≤ v) :
    (pts.foldl bboxStep (f64MAX, f64MAX, -f64MAX, -f64MAX)).2.2.2 = v := by
  obtain ⟨p₀, hp₀, hpv⟩ := ha
  have h1 : v ≤ (pts.foldl bboxStep (f64MAX, f64MAX, -f64MAX, -f64MAX)).2.2.2 := by
    rw [← hpv]
    exact bboxFold_le_maxy pts _ p₀ hp₀
  rcases bboxFold_maxy_attained pts (f64MAX, f64MAX, -f64MAX, -f64MAX) with h | ⟨q, hq, h⟩
  · replace h : (pts.foldl bboxStep (f64MAX, f64MAX, -f64MAX, -f64MAX)).2.2.2 = -f64MAX := h
    linarith
  · rw [h]
    have h2 := hb q hq
    rw [h] at h1
    linarith

/-- C6 amended: for strokes whose union bounding box has nonzero width and
height, `normalize_strokes` applies the single factor `min(scale_x, scale_y)`
to every coordinate, and — provided that factor is NONZERO (when
`target_width = 2·padding` or `target_height = 2·padding` makes it zero, the
whole drawing collapses to one point and the ratio becomes 0/0) — the
width/height ratio of the union bounding box is unchanged (exactly, in the
real-arithmetic model). The range hypotheses (`|coordinate| ≤ f64::MAX` for the
input points and for the computed offsets) say the data stays inside the
sentinel range of the source's fold initializers, which every run on actual
finite doubles satisfies. -/
theorem normalize_strokes_aspect (strokes : List Stroke)
    (target_width target_height padding : ℝ)
    (min_x min_y max_x max_y scale offset_x offset_y : ℝ)
    (hbb : calculate_bounding_box strokes = some (min_x, min_y, max_x, max_y))
    (hw : max_x - min_x ≠ 0) (hh : max_y - min_y ≠ 0)
    (hs : scale = min ((target_width - 2 * padding) / (max_x - min_x))
      ((target_height - 2 * padding) / (max_y - min_y)))
    (hsne : scale ≠ 0)
    (hox : offset_x = padding + (target_width - 2 * padding - (max_x - min_x) * scale) / 2)
    (hoy : offset_y = padding + (target_height - 2 * padding - (max_y - min_y) * scale) / 2)
    (hne : allPoints strokes ≠ [])
    (hrange : ∀ p ∈ allPoints strokes, |p.x| ≤ f64MAX ∧ |p.y| ≤ f64MAX)
    (hoxr : |offset_x| ≤ f64MAX) (hoyr : |offset_y| ≤ f64MAX) :
    bboxAspect (normalize_strokes strokes target_width target_height padding) =
      bboxAspect strokes := by
  obtain ⟨hoxl, hoxu⟩ := abs_le.mp hoxr
  obtain ⟨hoyl, hoyu⟩ := abs_le.mp hoyr
  have hSE : ¬ strokes.isEmpty = true := by
    intro hE
    rw [calculate_bounding_box, if_pos hE] at hbb
    exact Option.noConfusion hbb
  have hfold : (allPoints strokes).foldl bboxStep (f64MAX, f64MAX, -f64MAX, -f64MAX) =
      (min_x, min_y, max_x, max_y) := by
    rw [calculate_bounding_box, if_neg hSE, bbox_nested_fold] at hbb
    exact Option.some_inj.mp hbb
  have hx1 : ∀ p ∈ allPoints strokes, min_x ≤ p.x := by
    intro p hp
    have h := bboxFold_minx_le (allPoints strokes) (f64MAX, f64MAX, -f64MAX, -f64MAX) p hp
    rw [hfold] at h
    exact h
  have hx2 : ∀ p ∈ allPoints strokes, p.x ≤ max_x := by
    intro p hp
    have h := bboxFold_le_maxx (allPoints strokes) (f64MAX, f64MAX, -f64MAX, -f64MAX) p hp
    rw [hfold] at h
    exact h
  have hy1 : ∀ p ∈ allPoints strokes, min_y ≤ p.y := by
    intro p hp
    have h := bboxFold_miny_le (allPoints strokes) (f64MAX, f64MAX, -f64MAX, -f64MAX) p hp
    rw [hfold] at h
    exact h
  have hy2 : ∀ p ∈ allPoints strokes, p.y ≤ max_y := by
    intro p hp
    have h := bboxFold_le_maxy (allPoints strokes) (f64MAX, f64MAX, -f64MAX, -f64MAX) p hp
    rw [hfold] at h
    exact h
  obtain ⟨p₀, hp₀⟩ := List.exists_mem_of_ne_nil _ hne
  have haxmin : ∃ p ∈ allPoints strokes, p.x = min_x := by
    rcases bboxFold_minx_attained (allPoints strokes)
      (f64MAX, f64MAX, -f64MAX, -f64MAX) with h | ⟨q, hq, h⟩
    · replace h : min_x = f64MAX := by rw [hfold] at h; exact h
      refine ⟨p₀, hp₀, ?_⟩
      have h1 := hx1 p₀ hp₀
      have h2 := (abs_le.mp (hrange p₀ hp₀).1).2
      linarith
    · rw [hfold] at h
      exact ⟨q, hq, h.symm⟩
  have haxmax : ∃ p ∈ allPoints strokes, p.x = max_x := by
    rcases bboxFold_maxx_attained (allPoints strokes)
      (f64MAX, f64MAX, -f64MAX, -f64MAX) with h | ⟨q, hq, h⟩
    · replace h : max_x = -f64MAX := by rw [hfold] at h; exact h
      refine ⟨p₀, hp₀, ?_⟩
      have h1 := hx2 p₀ hp₀
      have h2 := (abs_le.mp (hrange p₀ hp₀).1).1
      linarith
    · rw [hfold] at h
      exact ⟨q, hq, h.symm⟩
  have haymin : ∃ p ∈ allPoints strokes, p.y = min_y := by
    rcases bboxFold_miny_attained (allPoints strokes)
      (f64MAX, f64MAX, -f64MAX, -f64MAX) with h | ⟨q, hq, h⟩
    · replace h : min_y = f64MAX := by rw [hfold] at h; exact h
      refine ⟨p₀, hp₀, ?_⟩
      have h1 := hy1 p₀ hp₀
      have h2 := (abs_le.mp (hrange p₀ hp₀).2).2
      linarith
    · rw [hfold] at h
      exact ⟨q, hq, h.symm⟩
  have haymax : ∃ p ∈ allPoints strokes, p.y = max_y := by
    rcases bboxFold_maxy_attained (allPoints strokes)
      (f64MAX, f64MAX, -f64MAX, -f64MAX) with h | ⟨q, hq, h⟩
    · replace h : max_y = -f64MAX := by rw [hfold] at h; exact h
      refine ⟨p₀, hp₀, ?_⟩
      have h1 := hy2 p₀ hp₀
      have h2 := (abs_le.mp (hrange p₀ hp₀).2).1
      linarith
    · rw [hfold] at h
      exact ⟨q, hq, h.symm⟩
  have hwle : min_x ≤ max_x := le_trans (hx1 p₀ hp₀) (hx2 p₀ hp₀)
  have hhle : min_y ≤ max_y := le_trans (hy1 p₀ hp₀) (hy2 p₀ hp₀)
  set g : Point → Point := fun p =>
    ⟨(p.x - min_x) * scale + offset_x, (p.y - min_y) * scale + offset_y,
      p.pressure, p.timestamp⟩ with hg
  set F : Stroke → Stroke := fun stroke =>
    { id := stroke.id
      color := stroke.color
      width := stroke.width * scale
      tool := stroke.tool
      points := stroke.points.map g } with hF
  have hres : normalize_strokes strokes target_width target_height padding =
      strokes.map F := by
    simp only [normalize_strokes, hbb]
    rw [if_neg (by push_neg; exact ⟨hw, hh⟩)]
    rw [← hs, ← hox, ← hoy]
  have hstrne : strokes ≠ [] := by
    intro h
    rw [List.isEmpty_iff] at hSE
    exact hSE h
  have hSE2 : ¬ (strokes.map F).isEmpty = true := by
    rw [List.isEmpty_iff, List.map_eq_nil_iff]
    exact hstrne
  have hall : allPoints (strokes.map F) = (allPoints strokes).map g :=
    allPoints_map g F (fun s => rfl) strokes
  rw [hres]
  rcases hsne.lt_or_lt with hneg | hpos
  · -- negative scale: the affine map reverses the order of each axis
    have hbb2 : calculate_bounding_box (strokes.map F) =
        some ((max_x - min_x) * scale + offset_x, (max_y - min_y) * scale + offset_y,
          offset_x, offset_y) := by
      rw [calculate_bounding_box, if_neg hSE2, bbox_nested_fold, hall]
      refine congrArg some
        (Prod.ext_iff.mpr ⟨?_, Prod.ext_iff.mpr ⟨?_, Prod.ext_iff.mpr ⟨?_, ?_⟩⟩⟩)
      · refine fold_minx_eq _ _ ?_ ?_ ?_
        · intro q hq
          obtain ⟨p, hp, rfl⟩ := List.mem_map.mp hq
          show (max_x - min_x) * scale + offset_x ≤ (p.x - min_x) * scale + offset_x
          have := mul_le_mul_of_nonpos_right (sub_le_sub_right (hx2 p hp) min_x) hneg.le
          linarith
        · obtain ⟨p, hp, hpx⟩ := haxmax
          refine ⟨g p, List.mem_map_of_mem g hp, ?_⟩
          show (p.x - min_x) * scale + offset_x = (max_x - min_x) * scale + offset_x
          rw [hpx]
        · show (max_x - min_x) * scale + offset_x ≤ f64MAX
          have : (max_x - min_x) * scale ≤ 0 :=
            mul_nonpos_of_nonneg_of_nonpos (by linarith) hneg.le
          linarith
      · refine fold_miny_eq _ _ ?_ ?_ ?_
        · intro q hq
          obtain ⟨p, hp, rfl⟩ := List.mem_map.mp hq
          show (max_y - min_y) * scale + offset_y ≤ (p.y - min_y) * scale + offset_y
          have := mul_le_mul_of_nonpos_right (sub_le_sub_right (hy2 p hp) min_y) hneg.le
          linarith
        · obtain ⟨p, hp, hpy⟩ := haymax
          refine ⟨g p, List.mem_map_of_mem g hp, ?_⟩
          show (p.y - min_y) * scale + offset_y = (max_y - min_y) * scale + offset_y
          rw [hpy]
        · show (max_y - min_y) * scale + offset_y ≤ f64MAX
          have : (max_y - min_y) * scale ≤ 0 :=
            mul_nonpos_of_nonneg_of_nonpos (by linarith) hneg.le
          linarith
      · refine fold_maxx_eq _ _ ?_ ?_ ?_
        · intro q hq
          obtain ⟨p, hp, rfl⟩ := List.mem_map.mp hq
          show (p.x - min_x) * scale + offset_x ≤ offset_x
          have := mul_nonpos_of_nonneg_of_nonpos
            (sub_nonneg.mpr (hx1 p hp)) hneg.le
          linarith
        · obtain ⟨p, hp, hpx⟩ := haxmin
          refine ⟨g p, List.mem_map_of_mem g hp, ?_⟩
          show (p.x - min_x) * scale + offset_x = offset_x
          rw [hpx]
          ring
        · show -f64MAX ≤ offset_x
          linarith
      · refine fold_maxy_eq _ _ ?_ ?_ ?_
        · intro q hq
          obtain ⟨p, hp, rfl⟩ := List.mem_map.mp hq
          show (p.y - min_y) * scale + offset_y ≤ offset_y
          have := mul_nonpos_of_nonneg_of_nonpos
            (sub_nonneg.mpr (hy1 p hp)) hneg.le
          linarith
        · obtain ⟨p, hp, hpy⟩ := haymin
          refine ⟨g p, List.mem_map_of_mem g hp, ?_⟩
          show (p.y - min_y) * scale + offset_y = offset_y
          rw [hpy]
          ring
        · show -f64MAX ≤ offset_y
          linarith
    simp only [bboxAspect, hbb2, hbb]
    rw [show offset_x - ((max_x - min_x) * scale + offset_x) =
        (max_x - min_x) * (-scale) by ring,
      show offset_y - ((max_y - min_y) * scale + offset_y) =
        (max_y - min_y) * (-scale) by ring,
      mul_div_mul_right _ _ (neg_ne_zero.mpr hsne)]
  · -- positive scale: the affine map preserves the order of each axis
    have hbb2 : calculate_bounding_box (strokes.map F) =
        some (offset_x, offset_y,
          (max_x - min_x) * scale + offset_x, (max_y - min_y) * scale + offset_y) := by
      rw [calculate_bounding_box, if_neg hSE2, bbox_nested_fold, hall]
      refine congrArg some
        (Prod.ext_iff.mpr ⟨?_, Prod.ext_iff.mpr ⟨?_, Prod.ext_iff.mpr ⟨?_, ?_⟩⟩⟩)
      · refine fold_minx_eq _ _ ?_ ?_ ?_
        · intro q hq
          obtain ⟨p, hp, rfl⟩ := List.mem_map.mp hq
          show offset_x ≤ (p.x - min_x) * scale + offset_x
          have := mul_nonneg (sub_nonneg.mpr (hx1 p hp)) hpos.le
          linarith
        · obtain ⟨p, hp, hpx⟩ := haxmin
          refine ⟨g p, List.mem_map_of_mem g hp, ?_⟩
          show (p.x - min_x) * scale + offset_x = offset_x
          rw [hpx]
          ring
        · show offset_x ≤ f64MAX
          linarith
      · refine fold_miny_eq _ _ ?_ ?_ ?_
        · intro q hq
          obtain ⟨p, hp, rfl⟩ := List.mem_map.mp hq
          show offset_y ≤ (p.y - min_y) * scale + offset_y
          have := mul_nonneg (sub_nonneg.mpr (hy1 p hp)) hpos.le
          linarith
        · obtain ⟨p, hp, hpy⟩ := haymin
          refine ⟨g p, List.mem_map_of_mem g hp, ?_⟩
          show (p.y - min_y) * scale + offset_y = offset_y
          rw [hpy]
          ring
        · show offset_y ≤ f64MAX
          linarith
      · refine fold_maxx_eq _ _ ?_ ?_ ?_
        · intro q hq
          obtain ⟨p, hp, rfl⟩ := List.mem_map.mp hq
          show (p.x - min_x) * scale + offset_x ≤ (max_x - min_x) * scale + offset_x
          have := mul_le_mul_of_nonneg_right (sub_le_sub_right (hx2 p hp) min_x) hpos.le
          linarith
        · obtain ⟨p, hp, hpx⟩ := haxmax
          refine ⟨g p, List.mem_map_of_mem g hp, ?_⟩
          show (p.x - min_x) * scale + offset_x = (max_x - min_x) * scale + offset_x
          rw [hpx]
        · show -f64MAX ≤ (max_x - min_x) * scale + offset_x
          have : 0 ≤ (max_x - min_x) * scale := mul_nonneg (by linarith) hpos.le
          linarith
      · refine fold_maxy_eq _ _ ?_ ?_ ?_
        · intro q hq
          obtain ⟨p, hp, rfl⟩ := List.mem_map.mp hq
          show (p.y - min_y) * scale + offset_y ≤ (max_y - min_y) * scale + offset_y
          have := mul_le_mul_of_nonneg_right (sub_le_sub_right (hy2 p hp) min_y) hpos.le
          linarith
        · obtain ⟨p, hp, hpy⟩ := haymax
          refine ⟨g p, List.mem_map_of_mem g hp, ?_⟩
          show (p.y - min_y) * scale + offset_y = (max_y - min_y) * scale + offset_y
          rw [hpy]
        · show -f64MAX ≤ (max_y - min_y) * scale + offset_y
          have : 0 ≤ (max_y - min_y) * scale := mul_nonneg (by linarith) hpos.le
          linarith
    simp only [bboxAspect, hbb2, hbb]
    rw [add_sub_cancel_right, add_sub_cancel_right, mul_div_mul_right _ _ hsne]

/-- The unit-square stroke of C6's counterexample. -/
def c6stroke : Stroke :=
  ⟨"u", [⟨0, 0, none, 0⟩, ⟨1, 0, none, 1⟩, ⟨0, 1, none, 2⟩, ⟨1, 1, none, 3⟩],
    "#000000", 1, "pen"⟩

/-- What `normalize_strokes [c6stroke] 0 0 0` produces: the whole drawing
collapsed onto the offset point (scale `0`), the stroke width scaled to `0`. -/
def c6flat : Stroke :=
  ⟨"u", [⟨0, 0, none, 0⟩, ⟨0, 0, none, 1⟩, ⟨0, 0, none, 2⟩, ⟨0, 0, none, 3⟩],
    "#000000", 0, "pen"⟩

theorem c6_bbox : calculate_bounding_box [c6stroke] = some (0, 0, 1, 1) := by
  rw [calculate_bounding_box, if_neg (by decide)]
  refine congrArg some ?_
  simp only [c6stroke, List.foldl, bboxStep]
  norm_num [f64MAX, min_def, max_def]

theorem c6_bbox_flat : calculate_bounding_box [c6flat] = some (0, 0, 0, 0) := by
  rw [calculate_bounding_box, if_neg (by decide)]
  refine congrArg some ?_
  simp only [c6flat, List.foldl, bboxStep]
  norm_num [f64MAX, min_def, max_def]

theorem c6_norm : normalize_strokes [c6stroke] 0 0 0 = [c6flat] := by
  simp only [normalize_strokes, c6_bbox]
  rw [if_neg (by norm_num)]
  simp only [c6stroke, c6flat, List.map]
  norm_num [min_def]

/-- C6 counterexample: the unit square has a union bounding box of nonzero
width and height, yet normalizing into a degenerate `0 × 0` viewport with
padding `0` (uniform scale `min(scale_x, scale_y) = 0`) collapses it to a
point: the width/height ratio drops from `1` to `0/0`, so the ratio is not
preserved as the claim states for every input. -/
theorem normalize_strokes_claim_false :
    (∃ mm : ℝ × ℝ × ℝ × ℝ, calculate_bounding_box [c6stroke] = some mm ∧
      mm.2.2.1 - mm.1 ≠ 0 ∧ mm.2.2.2 - mm.2.1 ≠ 0) ∧
    bboxAspect (normalize_strokes [c6stroke] 0 0 0) ≠ bboxAspect [c6stroke] := by
  refine ⟨⟨(0, 0, 1, 1), c6_bbox, by norm_num, by norm_num⟩, ?_⟩
  rw [c6_norm]
  simp only [bboxAspect, c6_bbox, c6_bbox_flat]
  norm_num

/-- Witness for C6's amended theorem: the unit square normalized into a
`4 × 4` viewport with padding `1` (uniform scale `2`, offsets `1`) keeps its
aspect ratio, which is `1`. -/
theorem normalize_strokes_aspect_witness :
    bboxAspect (normalize_strokes [c6stroke] 4 4 1) = bboxAspect [c6stroke] ∧
    bboxAspect [c6stroke] = 1 := by
  constructor
  · refine normalize_strokes_aspect [c6stroke] 4 4 1 0 0 1 1 2 1 1 c6_bbox
      (by norm_num) (by norm_num) (by norm_num [min_def]) (by norm_num)
      (by norm_num) (by norm_num) ?_ ?_ (by norm_num [f64MAX]) (by norm_num [f64MAX])
    · simp [allPoints, c6stroke]
    · intro p hp
      simp only [allPoints, c6stroke, List.map, List.flatten, List.append_nil,
        List.mem_cons, List.not_mem_nil, or_false] at hp
      rcases hp with rfl | rfl | rfl | rfl
      all_goals constructor <;> norm_num [f64MAX]
  · simp only [bboxAspect, c6_bbox]
    norm_num

/-! ## Angle machinery shared by C3 and C8 -/

/-- `atan2` always lands in `(-π, π]`. -/
theorem atan2_mem_Ioc (y x : ℝ) : atan2 y x ∈ Set.Ioc (-Real.pi) Real.pi :=
  Complex.arg_mem_Ioc _

theorem rustFmod_eq_self {a b : ℝ} (hb : 0 < b) (h0 : 0 ≤ a) (h1 : a < b) :
    rustFmod a b = a := by
  have hfl : ⌊a / b⌋ = 0 := by
    rw [Int.floor_eq_iff]
    constructor
    · push_cast
      exact div_nonneg h0 hb.le
    · push_cast
      simpa using (div_lt_one hb).mpr h1
  rw [rustFmod, rustTrunc, if_pos (div_nonneg h0 hb.le), hfl]
  push_cast
  ring

theorem rustFmod_eq_sub {a b : ℝ} (hb : 0 < b) (h0 : b ≤ a) (h1 : a < 2 * b) :
    rustFmod a b = a - b := by
  have ha0 : 0 ≤ a := le_trans hb.le h0
  have hfl : ⌊a / b⌋ = 1 := by
    rw [Int.floor_eq_iff]
    constructor
    · push_cast
      exact (le_div_iff₀ hb).mpr (by linarith)
    · push_cast
      exact (div_lt_iff₀ hb).mpr (by linarith)
  rw [rustFmod, rustTrunc, if_pos (div_nonneg ha0 hb.le), hfl]
  push_cast
  ring

/-! ## C3: the diamond check -/

/-- Claim C3's cardinal sector, read generously: the angle lies within `π/6`
of the target measured on the circle (i.e. the difference, shifted by a full
turn if needed, is within `π/6`). -/
def claimSector (angle target : ℝ) : Prop :=
  |angle - target| < Real.pi / 6 ∨ |angle - target - 2 * Real.pi| < Real.pi / 6 ∨
    |angle - target + 2 * Real.pi| < Real.pi / 6

/-- C3 amended: `check_diamond` is true iff every one of the four target
angles `−π/2, 0, π/2, π` receives at least one point under the SOURCE's
proximity test, which accepts an angle within `π/6` of the target OR with
`|π − |angle − target||` within `π/6` — i.e. roughly OPPOSITE directions also
score, so a point is not confined to its own sector as the claim's exclusive
sectors demand. -/
theorem check_diamond_iff (points : List Point) (center : ℝ × ℝ) :
    check_diamond points center ↔
      ∀ target ∈ [-(Real.pi / 2), 0, Real.pi / 2, Real.pi], ∃ p ∈ points,
        (|atan2 (p.y - center.2) (p.x - center.1) - target| < Real.pi / 6 ∨
          |Real.pi - abs (atan2 (p.y - center.2) (p.x - center.1) - target)| < Real.pi / 6) := by
  unfold check_diamond
  constructor <;> intro h target ht <;> have h2 := h target ht
  · rw [List.countP_pos_iff] at h2
    obtain ⟨p, hp, hpred⟩ := h2
    simp only [decide_eq_true_eq] at hpred
    exact ⟨p, hp, hpred⟩
  · rw [List.countP_pos_iff]
    obtain ⟨p, hp, hpred⟩ := h2
    refine ⟨p, hp, ?_⟩
    simp only [decide_eq_true_eq]
    exact hpred

/-- The three points of C3's counterexample: `(√3, 0)`, `(0, 1)`, `(−√3, −1)`,
whose centroid is the origin and whose angles from it are `0`, `π/2` and
`−5π/6`. -/
noncomputable def c3pts : List Point :=
  [⟨Real.sqrt 3, 0, none, 0⟩, ⟨0, 1, none, 1⟩, ⟨-Real.sqrt 3, -1, none, 2⟩]

theorem c3_centroid : calculate_centroid c3pts = (0, 0) := by
  simp only [calculate_centroid, c3pts, List.map, List.sum_cons, List.sum_nil,
    List.length_cons, List.length_nil]
  norm_num

theorem c3_angle1 : atan2 ((0 : ℝ) - 0) (Real.sqrt 3 - 0) = 0 := by
  rw [sub_zero, sub_zero]
  have : (⟨Real.sqrt 3, 0⟩ : ℂ) = ((Real.sqrt 3 : ℝ) : ℂ) := by
    apply Complex.ext <;> simp
  rw [atan2, this]
  exact Complex.arg_ofReal_of_nonneg (Real.sqrt_nonneg 3)

theorem c3_angle2 : atan2 ((1 : ℝ) - 0) ((0 : ℝ) - 0) = Real.pi / 2 := by
  rw [sub_zero, sub_zero, atan2]
  exact Complex.arg_eq_pi_div_two_iff.mpr ⟨rfl, one_pos⟩

theorem c3_angle3 :
    atan2 ((-1 : ℝ) - 0) (-Real.sqrt 3 - 0) = Real.pi / 6 - Real.pi := by
  rw [sub_zero, sub_zero, atan2]
  have hre : (⟨-Real.sqrt 3, -1⟩ : ℂ).re < 0 := by
    show -Real.sqrt 3 < 0
    have := Real.sqrt_pos.mpr (by norm_num : (0 : ℝ) < 3)
    linarith
  have him : (⟨-Real.sqrt 3, -1⟩ : ℂ).im < 0 := by norm_num
  rw [Complex.arg_of_re_neg_of_im_neg hre him]
  have habs : Complex.abs ⟨-Real.sqrt 3, -1⟩ = 2 := by
    rw [Complex.abs_apply, Complex.normSq_mk]
    rw [show -Real.sqrt 3 * -Real.sqrt 3 + (-1 : ℝ) * -1 =
      Real.sqrt 3 * Real.sqrt 3 + 1 by ring]
    rw [Real.mul_self_sqrt (by norm_num : (0 : ℝ) ≤ 3)]
    rw [show (3 : ℝ) + 1 = 2 ^ 2 by norm_num, Real.sqrt_sq (by norm_num : (0 : ℝ) ≤ 2)]
  rw [habs, show (-(⟨-Real.sqrt 3, -1⟩ : ℂ)).im = 1 by simp]
  rw [show (1 : ℝ) / 2 = Real.sin (Real.pi / 6) by rw [Real.sin_pi_div_six]]
  rw [Real.arcsin_sin (by linarith [Real.pi_pos]) (by linarith [Real.pi_pos])]

/-- C3 counterexample: on `c3pts`, with its genuine centroid `(0, 0)`,
`check_diamond` returns true — the point at angle `0` also scores the opposite
`π` target and the point at angle `π/2` also scores `−π/2` — yet the claim's
bottom sector (the `±π/6` window around `−π/2`) contains no point's angle, so
"true iff every sector contains a point, each point counting only for its own
sector" is false. -/
theorem check_diamond_claim_false :
    check_diamond c3pts (calculate_centroid c3pts) ∧
    ¬ (∀ target ∈ [-(Real.pi / 2), 0, Real.pi / 2, Real.pi], ∃ p ∈ c3pts,
        claimSector (atan2 (p.y - (calculate_centroid c3pts).2)
          (p.x - (calculate_centroid c3pts).1)) target) := by
  have hpi := Real.pi_pos
  constructor
  · rw [c3_centroid]
    intro target ht
    rw [List.countP_pos_iff]
    simp only [List.mem_cons, List.not_mem_nil, or_false] at ht
    rcases ht with rfl | rfl | rfl | rfl
    · -- target −π/2: the point (0, 1) at angle π/2 scores via the opposite test
      refine ⟨⟨0, 1, none, 1⟩, by simp [c3pts], ?_⟩
      simp only [decide_eq_true_eq]
      rw [c3_angle2]
      right
      rw [show Real.pi / 2 - -(Real.pi / 2) = Real.pi by ring, abs_of_pos hpi]
      rw [sub_self, abs_zero]
      linarith
    · -- target 0: the point (√3, 0) at angle 0
      refine ⟨⟨Real.sqrt 3, 0, none, 0⟩, by simp [c3pts], ?_⟩
      simp only [decide_eq_true_eq]
      rw [c3_angle1]
      left
      rw [sub_zero, abs_zero]
      linarith
    · -- target π/2: the point (0, 1) at angle π/2
      refine ⟨⟨0, 1, none, 1⟩, by simp [c3pts], ?_⟩
      simp only [decide_eq_true_eq]
      rw [c3_angle2]
      left
      rw [sub_self, abs_zero]
      linarith
    · -- target π: the point (√3, 0) at angle 0 scores via the opposite test
      refine ⟨⟨Real.sqrt 3, 0, none, 0⟩, by simp [c3pts], ?_⟩
      simp only [decide_eq_true_eq]
      rw [c3_angle1]
      right
      rw [zero_sub, abs_neg, abs_of_pos hpi, sub_self, abs_zero]
      linarith
  · rw [c3_centroid]
    intro hall
    obtain ⟨p, hp, hsec⟩ := hall (-(Real.pi / 2)) (by simp)
    simp only [c3pts, List.mem_cons, List.not_mem_nil, or_false] at hp
    have habs : ∀ v : ℝ, Real.pi / 6 ≤ v ∨ v ≤ -(Real.pi / 6) → ¬ |v| < Real.pi / 6 := by
      intro v hv hlt
      rcases hv with hv | hv
      · exact absurd hlt (not_lt.mpr (le_abs.mpr (Or.inl hv)))
      · exact absurd hlt (not_lt.mpr (le_abs.mpr (Or.inr (by linarith))))
    rcases hp with rfl | rfl | rfl
    · rw [c3_angle1] at hsec
      rcases hsec with h | h | h
      · exact habs _ (Or.inl (by linarith)) h
      · exact habs _ (Or.inr (by linarith)) h
      · exact habs _ (Or.inl (by linarith)) h
    · rw [c3_angle2] at hsec
      rcases hsec with h | h | h
      · exact habs _ (Or.inl (by linarith)) h
      · exact habs _ (Or.inr (by linarith)) h
      · exact habs _ (Or.inl (by linarith)) h
    · rw [c3_angle3] at hsec
      rcases hsec with h | h | h
      · exact habs _ (Or.inr (by linarith)) h
      · exact habs _ (Or.inr (by linarith)) h
      · exact habs _ (Or.inl (by linarith)) h

/-! ## C8: arrow-head detection -/

/-- The "main direction" of the arrow-head detector (`shapes.rs` lines
444-455): the heading from `points[n - 10]` (the first point when `n ≤ 10`;
note `points[n-10] = points[0]` then anyway) to the tip `points[n - 1]`. -/
noncomputable def mainDir (points : List Point) : ℝ :=
  if 0 < points.length - 10 then
    atan2 ((points.getLastD default).y - (points.getD (points.length - 10) default).y)
      ((points.getLastD default).x - (points.getD (points.length - 10) default).x)
  else
    atan2 ((points.getLastD default).y - points.headI.y)
      ((points.getLastD default).x - points.headI.x)

/-- Heading of the segment `points[i] → points[i+1]`. -/
noncomputable def segAngle (points : List Point) (i : ℕ) : ℝ :=
  atan2 ((points.getD (i + 1) default).y - (points.getD i default).y)
    ((points.getD (i + 1) default).x - (points.getD i default).x)

theorem mainDir_mem (points : List Point) :
    mainDir points ∈ Set.Ioc (-Real.pi) Real.pi := by
  unfold mainDir
  split
  · exact atan2_mem_Ioc _ _
  · exact atan2_mem_Ioc _ _

/-- Unfolding of `detect_arrow_head`: a scanned segment passing the source's
barb test makes it return the classic arrow head. -/
theorem detect_arrow_head_some (points : List Point) (tol : ℝ)
    (h : ¬ points.length < 5)
    (hb : ∃ i ∈ (List.range (points.length - 1)).drop (points.length - 5),
      30 < rustFmod (|segAngle points i - mainDir points| * 180 / Real.pi) 180 ∧
        rustFmod (|segAngle points i - mainDir points| * 180 / Real.pi) 180 < 150) :
    detect_arrow_head points tol =
      some ⟨"classic", 10, mainDir points * 180 / Real.pi⟩ := by
  rw [detect_arrow_head, if_neg h]
  exact if_pos hb

/-- Unfolding of `detect_arrow_head`: no scanned segment passing the source's
barb test means `None`. -/
theorem detect_arrow_head_none (points : List Point) (tol : ℝ)
    (h : ¬ points.length < 5)
    (hnb : ¬ ∃ i ∈ (List.range (points.length - 1)).drop (points.length - 5),
      30 < rustFmod (|segAngle points i - mainDir points| * 180 / Real.pi) 180 ∧
        rustFmod (|segAngle points i - mainDir points| * 180 / Real.pi) 180 < 150) :
    detect_arrow_head points tol = none := by
  rw [detect_arrow_head, if_neg h]
  exact if_neg hnb

/-- The angular separation of two headings, in degrees: the absolute
difference in degrees reduced modulo a full turn, then folded to the smaller
arc. This is the claim's "deviates from the main direction by". -/
noncomputable def angSepDeg (a b : ℝ) : ℝ :=
  min (rustFmod (|a - b| * 180 / Real.pi) 360)
    (360 - rustFmod (|a - b| * 180 / Real.pi) 360)

/-- The source's barb test (`(|seg − main| · 180/π) % 180` strictly between 30
and 150) coincides with the claim's reading "the heading deviates from the
main direction by more than 30° and less than 150°" for headings in the
`atan2` range: the `% 180` folds deviations beyond 180° exactly onto the
interval the true angular separation tests land in (`210° < d < 330°` in both
readings). -/
theorem barb_iff (seg main : ℝ) (hs : seg ∈ Set.Ioc (-Real.pi) Real.pi)
    (hm : main ∈ Set.Ioc (-Real.pi) Real.pi) :
    (30 < rustFmod (|seg - main| * 180 / Real.pi) 180 ∧
      rustFmod (|seg - main| * 180 / Real.pi) 180 < 150) ↔
    (30 < angSepDeg seg main ∧ angSepDeg seg main < 150) := by
  obtain ⟨hs1, hs2⟩ := hs
  obtain ⟨hm1, hm2⟩ := hm
  have hpi := Real.pi_pos
  set d := |seg - main| * 180 / Real.pi with hd
  have hd0 : 0 ≤ d := by positivity
  have hdlt : d < 360 := by
    have habs : |seg - main| < 2 * Real.pi := by
      rw [abs_lt]
      constructor <;> linarith
    rw [hd, div_lt_iff₀ hpi]
    nlinarith
  have hsep : angSepDeg seg main = min d (360 - d) := by
    rw [angSepDeg, ← hd, rustFmod_eq_self (by norm_num) hd0 hdlt]
  by_cases hcase : d < 180
  · rw [rustFmod_eq_self (by norm_num) hd0 hcase, hsep,
      min_eq_left (by linarith)]
  · push_neg at hcase
    rw [rustFmod_eq_sub (by norm_num) hcase (by linarith), hsep,
      min_eq_right (by linarith)]
    constructor <;> rintro ⟨ha, hb⟩ <;> exact ⟨by linarith, by linarith⟩

/-- C8: for every point sequence and tolerance, `detect_arrow_head` returns
`Some(ArrowHead{style: "classic", size: 10, direction: mainDir·180/π})` exactly
when the stroke has at least 5 points and one of the scanned segments before
the tip (indices `n-5 … n-2`) has a heading whose angular separation from the
main direction is strictly between 30° and 150°; in every other case —
including every sequence of fewer than 5 points — it returns `None` (the
second conjunct says these are the only two outputs). -/
theorem detect_arrow_head_spec (points : List Point) (tol : ℝ) :
    (detect_arrow_head points tol =
        some ⟨"classic", 10, mainDir points * 180 / Real.pi⟩ ↔
      5 ≤ points.length ∧
        ∃ i ∈ (List.range (points.length - 1)).drop (points.length - 5),
          30 < angSepDeg (segAngle points i) (mainDir points) ∧
            angSepDeg (segAngle points i) (mainDir points) < 150) ∧
    (detect_arrow_head points tol = none ∨
      detect_arrow_head points tol =
        some ⟨"classic", 10, mainDir points * 180 / Real.pi⟩) := by
  by_cases h5 : points.length < 5
  · have hnone : detect_arrow_head points tol = none := by
      rw [detect_arrow_head, if_pos h5]
    rw [hnone]
    refine ⟨⟨fun hcon => absurd hcon (by simp), ?_⟩, Or.inl rfl⟩
    rintro ⟨hlen, -⟩
    omega
  · by_cases hb : ∃ i ∈ (List.range (points.length - 1)).drop (points.length - 5),
      30 < rustFmod (|segAngle points i - mainDir points| * 180 / Real.pi) 180 ∧
        rustFmod (|segAngle points i - mainDir points| * 180 / Real.pi) 180 < 150
    · rw [detect_arrow_head_some points tol h5 hb]
      obtain ⟨i, hi, hcond⟩ := hb
      exact ⟨⟨fun _ => ⟨by omega, i, hi,
          (barb_iff _ _ (atan2_mem_Ioc _ _) (mainDir_mem points)).mp hcond⟩,
        fun _ => rfl⟩, Or.inr rfl⟩
    · rw [detect_arrow_head_none points tol h5 hb]
      refine ⟨⟨fun hcon => absurd hcon (by simp), ?_⟩, Or.inl rfl⟩
      rintro ⟨-, i, hi, hcond⟩
      exact absurd ⟨i, hi,
        (barb_iff _ _ (atan2_mem_Ioc _ _) (mainDir_mem points)).mpr hcond⟩ hb

/-- Witness exercising `detect_arrow_head_spec` at a concrete input: a 2-point
stroke is below the 5-point minimum, so the detector returns `None`. -/
theorem detect_arrow_head_spec_witness :
    detect_arrow_head [⟨0, 0, none, 0⟩, ⟨1, 0, none, 1⟩] 30 = none := by
  rcases (detect_arrow_head_spec [⟨0, 0, none, 0⟩, ⟨1, 0, none, 1⟩] 30).2 with h | h
  · exact h
  · obtain ⟨hlen, -⟩ :=
      (detect_arrow_head_spec [⟨0, 0, none, 0⟩, ⟨1, 0, none, 1⟩] 30).1.mp h
    exact absurd hlen (by norm_num)

/-! ## C4: the panic on NaN input

`find_prominent_corners` (shapes.rs lines 382-408) sorts the turning-angle
list with `sort_by(|a, b| b.1.partial_cmp(&a.1).unwrap())`. `partial_cmp` on
`f64` returns `None` when either operand is NaN, and the `unwrap` then panics.
The fragment below models `f64` as `Option ℝ` with `none` for NaN (the IEEE
operations `-`, `abs` and `atan2` all return NaN when fed NaN) and shows that
for the 5-point stroke `(0,0),(1,0),(2,0),(NaN,0),(0,0)` the computed key list
has length 3 and contains a NaN — so the sort's comparator is called on a NaN
key (every element of a slice of length ≥ 2 is compared at least once by any
sort) and the `unwrap` panics, contradicting the claim that `detect_shapes`
never panics on non-finite coordinates. The surrounding path is traced in
RESULTS: this stroke passes the `min_points` gate, is closed (distance 0 <
threshold 0.2), has circularity forced to 0 by the NaN (`(1.0 - NaN).max(0.0)
= 0.0`), has rectangularity 0 because its bounding-box area is `2·0 = 0`
(Rust `min`/`max` ignore the NaN), and therefore reaches the triangle score. -/

/-- Modelled IEEE-754 double: `none` is NaN. -/
def FP : Type := Option ℝ

/-- A point with possibly-NaN coordinates. -/
structure FPoint where
  x : FP
  y : FP

instance : Inhabited FPoint := ⟨⟨some 0, some 0⟩⟩

/-- IEEE subtraction: NaN-propagating. -/
def fpSub : FP → FP → FP
  | some a, some b => some (a - b)
  | _, _ => none

/-- IEEE `atan2`: NaN if either argument is NaN. -/
noncomputable def fpAtan2 : FP → FP → FP
  | some y, some x => some (atan2 y x)
  | _, _ => none

/-- IEEE `abs`: NaN-propagating. -/
def fpAbs : FP → FP
  | some a => some |a|
  | none => none

/-- The turning-angle keys of `find_prominent_corners` (shapes.rs lines
389-398) over NaN-aware scalars: for each interior index `i`,
`((next.y - curr.y).atan2(next.x - curr.x) - (curr.y - prev.y).atan2(curr.x - prev.x)).abs()`. -/
noncomputable def fpAngleKeys (points : List FPoint) : List FP :=
  (((List.range points.length).drop 1).take (points.length - 2)).map (fun i =>
    let prev := points.getD (i - 1) default
    let curr := points.getD i default
    let next := points.getD (i + 1) default
    let angle1 := fpAtan2 (fpSub curr.y prev.y) (fpSub curr.x prev.x)
    let angle2 := fpAtan2 (fpSub next.y curr.y) (fpSub next.x curr.x)
    fpAbs (fpSub angle2 angle1))

/-- `slice::sort_by(|a, b| b.partial_cmp(a).unwrap())` panics exactly when the
comparator is handed a pair with no order, i.e. a NaN key: any correct sort of
a slice with at least 2 elements compares every element at least once, so a
NaN key guarantees the panic. -/
def fpSortPanics (keys : List FP) : Prop := 2 ≤ keys.length ∧ ∃ k ∈ keys, k = none

/-- C4: on the stroke `(0,0),(1,0),(2,0),(NaN,0),(0,0)` the turning-angle list
built by `find_prominent_corners` has 3 entries of which the second and third
are NaN, so the source's `partial_cmp(..).unwrap()` inside `sort_by` panics:
`detect_shapes` is not total on non-finite coordinates. -/
theorem find_prominent_corners_nan_panics :
    fpSortPanics (fpAngleKeys
      [⟨some 0, some 0⟩, ⟨some 1, some 0⟩, ⟨some 2, some 0⟩,
        ⟨none, some 0⟩, ⟨some 0, some 0⟩]) := by
  have h1 : (fpAngleKeys
      [⟨some 0, some 0⟩, ⟨some 1, some 0⟩, ⟨some 2, some 0⟩,
        ⟨none, some 0⟩, ⟨some 0, some 0⟩]).length = 3 := rfl
  have h2 : (fpAngleKeys
      [⟨some 0, some 0⟩, ⟨some 1, some 0⟩, ⟨some 2, some 0⟩,
        ⟨none, some 0⟩, ⟨some 0, some 0⟩]).get ⟨1, by rw [h1]; omega⟩ = none := rfl
  refine ⟨by rw [h1]; omega, ?_⟩
  exact ⟨_, List.get_mem _ _ _, h2⟩

end Whiteboard
